import Mathlib

/-!
KQuanFS (`learn.cpp`): a verification development

Shallow embedding of the branch store (`QuantumFile`), its binary codec
(`serialize` / `deserialize`), the entanglement monitor
(`compute_integrity`, `entangle`, `disentangle`,
`check_entanglement_integrity`), the logic gates (`apply_gate`), the branch
evolver (`evolve_state` and the five threads of `main`), the collapse
(`measure`) and the qubit operations (`create_qbit`, `hadamard`,
`measure_qbit`, `apply_hadamard`, `measure_qbit_cli`).

Modelling conventions
* a `std::string` is the list of its bytes; a byte is a `Fin 256`;
* `size_t` is 8 bytes, `int` 4 bytes, `double` 8 bytes, `bool` 1 byte, and the
  host is little-endian, so the object representation of an integer is the list
  of its base-256 digits, least significant first;
* a `double` is carried as its 64-bit pattern;
* an `std::ifstream` is the list of bytes not yet consumed plus its fail flag;
  `read` copies the bytes it can get over the start of the destination and
  leaves the rest of the destination as it was;
* an uninitialised local variable starts with an indeterminate value, supplied
  by an oracle indexed by the declaration and the loop iteration;
* random draws (`rand()`, `dis(gen)`, `d(gen)`) and values read from the input are
  parameters of the functions that use them;
* the threads of `main` are a step relation run under an arbitrary schedule, with
  the mutex held by at most one thread;
* double precision arithmetic is a parameter (`FloatOps`); the constants `1.0`,
  `0.0` and `2.0` are their bit patterns.
-/

namespace KQuanFS

/-! ## Bytes and object representations -/

/-- One `char`. -/
abbrev Byte := Fin 256

/-- A `std::string`, as its bytes. -/
abbrev Str := List Byte

/-- The low byte of a natural number. -/
def byteOf (n : Nat) : Byte := ⟨n % 256, Nat.mod_lt n (by decide)⟩

/-- Object representation of an unsigned integer stored in `w` bytes. -/
def leBytes : Nat → Nat → List Byte
  | 0, _ => []
  | w + 1, n => byteOf n :: leBytes w (n / 256)

/-- The unsigned integer held by an object representation. -/
def leValue : List Byte → Nat
  | [] => 0
  | b :: bs => b.val + 256 * leValue bs

/-- The 32-bit two's complement pattern of an `int`. -/
def intBits (v : Int) : Nat := (v % 4294967296).toNat

/-- The `int` held by a 32-bit pattern. -/
def toInt32 (n : Nat) : Int :=
  if n < 2147483648 then (n : Int) else (n : Int) - 4294967296

/-- Object representation of a `bool`. -/
def boolByte (b : Bool) : Byte := if b then 1 else 0

/-- The `bool` held by a byte: anything but zero is `true`. -/
def byteBool (b : Byte) : Bool := decide (b ≠ 0)

/-- The only byte of a one-byte object. -/
def firstByte : List Byte → Byte
  | [] => 0
  | b :: _ => b

/-! ## Data model (`learn.cpp` lines 18-39, 70-75) -/

/-- `struct FileMetadata`. -/
structure FileMetadata where
  owner : Str
  permissions : Str
  timestamp : Str
  size : Nat
deriving DecidableEq

/-- `struct Qbit`; `alpha` and `beta` are binary64 bit patterns. -/
structure Qbit where
  alpha : Nat
  beta : Nat
  measured : Bool
  value : Int
deriving DecidableEq

/-- `struct QuantumFile`. -/
structure QuantumFile where
  name : Str
  possible_contents : List Str
  possible_metadata : List FileMetadata
  qbits : List Qbit
  observed_content : Str
  observed_metadata : FileMetadata
deriving DecidableEq

/-- A value-initialised `FileMetadata` (what `vector::resize` appends). -/
def FileMetadata.init : FileMetadata := ⟨[], [], [], 0⟩

/-- A value-initialised `Qbit`: zeroed amplitudes, then the default member
initialisers `measured = false`, `value = -1`. -/
def Qbit.init : Qbit := ⟨0, 0, false, -1⟩

/-- `vector::resize(n)` and `string::resize(n)`: keep the first `n` elements,
pad with `d` up to `n`. -/
def resize {α : Type} (d : α) (xs : List α) (n : Nat) : List α :=
  xs.take n ++ List.replicate (n - xs.length) d

/-! ## `serialize` (lines 125-158) -/

/-- `ofs.write(reinterpret_cast<const char*>(&n), sizeof(n))` for a `size_t`. -/
def writeSizeT (n : Nat) : List Byte := leBytes 8 n

/-- A length field followed by the characters of the string. -/
def writeStr (s : Str) : List Byte := writeSizeT s.length ++ s

/-- Body of the metadata loop of `serialize`. -/
def writeMeta (m : FileMetadata) : List Byte :=
  writeStr m.owner ++ (writeStr m.permissions ++ (writeStr m.timestamp ++ writeSizeT m.size))

/-- Body of the qbit loop of `serialize`. -/
def writeQbit (q : Qbit) : List Byte :=
  leBytes 8 q.alpha ++ (leBytes 8 q.beta ++ (boolByte q.measured :: leBytes 4 (intBits q.value)))

/-- A range-for loop that writes every element in order. -/
def writeAll {α : Type} (f : α → List Byte) : List α → List Byte
  | [] => []
  | x :: xs => f x ++ writeAll f xs

/-- The bytes `serialize` writes to the file. -/
def serialize (qf : QuantumFile) : List Byte :=
  writeSizeT qf.possible_contents.length ++ (writeAll writeStr qf.possible_contents ++
  (writeSizeT qf.possible_metadata.length ++ (writeAll writeMeta qf.possible_metadata ++
  (writeSizeT qf.qbits.length ++ writeAll writeQbit qf.qbits))))

/-! ## `deserialize` (lines 160-217) -/

/-- An open `std::ifstream`. -/
structure IStream where
  rest : List Byte
  fail : Bool
deriving DecidableEq

/-- `ifs.read(buf, k)` where the destination currently holds `mem`: nothing
happens on a failed stream; otherwise the available bytes (at most `k`) are
copied over the start of the destination, and getting fewer than `k` sets the
fail flag. -/
def IStream.read (ifs : IStream) (k : Nat) (mem : List Byte) : List Byte × IStream :=
  if ifs.fail then (mem, ifs)
  else if k ≤ ifs.rest.length then
    (ifs.rest.take k ++ mem.drop k, ⟨ifs.rest.drop k, false⟩)
  else
    (ifs.rest ++ mem.drop ifs.rest.length, ⟨[], true⟩)

/-- `ifs.read(reinterpret_cast<char*>(&x), sizeof(x))` for a `size_t` whose
current value is `old`. -/
def readSizeT (ifs : IStream) (old : Nat) : Nat × IStream :=
  ((leValue (ifs.read 8 (leBytes 8 old)).1), (ifs.read 8 (leBytes 8 old)).2)

/-- The uninitialised locals of `deserialize`. -/
inductive Local
  | n | len | m | len_owner | len_perm | len_time | q
deriving DecidableEq

/-- Indeterminate initial values: one per uninitialised local and iteration. -/
abbrev Uninit := Local → Nat → Nat

/-- How a call of `deserialize` ends: one constructor per `return`, and
`completed` for reaching `ifs.close()`. -/
inductive Exit
  | openFailed
  | tooManyContents
  | contentTooLong
  | tooManyMetadata
  | ownerTooLong
  | permTooLong
  | timeTooLong
  | tooManyQbits
  | completed
deriving DecidableEq

/-- The loop `for (size_t i = 0; i < n; ++i)` over the contents (lines 173-182),
with `k` iterations left, at index `i`. -/
def readContents (junk : Uninit) :
    Nat → Nat → List Str → IStream → List Str × IStream × Option Exit
  | 0, _, cs, ifs => (cs, ifs, none)
  | k + 1, i, cs, ifs =>
    let r := readSizeT ifs (junk Local.len i)
    if r.1 > 1000000 then (cs, r.2, some Exit.contentTooLong)
    else
      let c := r.2.read r.1 (resize 0 (cs.getD i []) r.1)
      readContents junk k (i + 1) (cs.set i c.1) c.2

/-- The metadata loop (lines 190-205). -/
def readMetadata (junk : Uninit) :
    Nat → Nat → List FileMetadata → IStream → List FileMetadata × IStream × Option Exit
  | 0, _, ms, ifs => (ms, ifs, none)
  | k + 1, i, ms, ifs =>
    let e := ms.getD i FileMetadata.init
    let lo := readSizeT ifs (junk Local.len_owner i)
    if lo.1 > 1000 then (ms, lo.2, some Exit.ownerTooLong)
    else
      let o := lo.2.read lo.1 (resize 0 e.owner lo.1)
      let e1 : FileMetadata := { e with owner := o.1 }
      let lp := readSizeT o.2 (junk Local.len_perm i)
      if lp.1 > 1000 then (ms.set i e1, lp.2, some Exit.permTooLong)
      else
        let p := lp.2.read lp.1 (resize 0 e1.permissions lp.1)
        let e2 : FileMetadata := { e1 with permissions := p.1 }
        let lt := readSizeT p.2 (junk Local.len_time i)
        if lt.1 > 1000 then (ms.set i e2, lt.2, some Exit.timeTooLong)
        else
          let t := lt.2.read lt.1 (resize 0 e2.timestamp lt.1)
          let e3 : FileMetadata := { e2 with timestamp := t.1 }
          let s := readSizeT t.2 e3.size
          readMetadata junk k (i + 1) (ms.set i { e3 with size := s.1 }) s.2

/-- One iteration of the qbit loop (lines 211-214) on the element `e`. -/
def readQbit (e : Qbit) (ifs : IStream) : Qbit × IStream :=
  let a := readSizeT ifs e.alpha
  let b := readSizeT a.2 e.beta
  let m := b.2.read 1 [boolByte e.measured]
  let v := m.2.read 4 (leBytes 4 (intBits e.value))
  (⟨a.1, b.1, byteBool (firstByte m.1), toInt32 (leValue v.1)⟩, v.2)

/-- The qbit loop (lines 210-215). -/
def readQbits : Nat → Nat → List Qbit → IStream → List Qbit × IStream
  | 0, _, qs, ifs => (qs, ifs)
  | k + 1, i, qs, ifs =>
    let r := readQbit (qs.getD i Qbit.init) ifs
    readQbits k (i + 1) (qs.set i r.1) r.2

/-- The function `deserialize`: the store it leaves behind and the way it ended.
`file` is `none` when the file cannot be opened. -/
def deserialize (qf : QuantumFile) (junk : Uninit) (file : Option (List Byte)) :
    QuantumFile × Exit :=
  match file with
  | none => (qf, Exit.openFailed)
  | some bytes =>
    let n := readSizeT ⟨bytes, false⟩ (junk Local.n 0)
    if n.1 > 10000 then (qf, Exit.tooManyContents)
    else
      let cs := readContents junk n.1 0 (resize [] qf.possible_contents n.1) n.2
      let qf1 : QuantumFile := { qf with possible_contents := cs.1 }
      match cs.2.2 with
      | some e => (qf1, e)
      | none =>
        let m := readSizeT cs.2.1 (junk Local.m 0)
        if m.1 > 10000 then (qf1, Exit.tooManyMetadata)
        else
          let ms := readMetadata junk m.1 0 (resize FileMetadata.init qf1.possible_metadata m.1) m.2
          let qf2 : QuantumFile := { qf1 with possible_metadata := ms.1 }
          match ms.2.2 with
          | some e => (qf2, e)
          | none =>
            let q := readSizeT ms.2.1 (junk Local.q 0)
            if q.1 > 10000 then (qf2, Exit.tooManyQbits)
            else
              let qs := readQbits q.1 0 (resize Qbit.init qf2.qbits q.1) q.2
              ({ qf2 with qbits := qs.1 }, Exit.completed)

/-! ## The wire format as the specification describes it -/

/-- Error kinds of the specified decoder. -/
inductive DecodeError
  | OversizedCount
  | OversizedLength
  | Truncated
deriving DecidableEq

/-- What a stream carries: branches, metadata records and qubits. -/
structure Decoded where
  branches : List Str
  metadata : List FileMetadata
  qubits : List Qbit
deriving DecidableEq

/-- Results of the specified decoder can be compared. -/
instance decEqExcept {ε α : Type} [DecidableEq ε] [DecidableEq α] : DecidableEq (Except ε α)
  | Except.ok a, Except.ok b =>
    if h : a = b then isTrue (by rw [h]) else isFalse (fun h2 => h (Except.ok.inj h2))
  | Except.error a, Except.error b =>
    if h : a = b then isTrue (by rw [h]) else isFalse (fun h2 => h (Except.error.inj h2))
  | Except.ok _, Except.error _ => isFalse (fun h => by cases h)
  | Except.error _, Except.ok _ => isFalse (fun h => by cases h)

/-- The next `k` bytes of a stream, if it has that many. -/
def takeBytes (k : Nat) (bs : List Byte) : Option (List Byte × List Byte) :=
  if k ≤ bs.length then some (bs.take k, bs.drop k) else none

/-- Follows the spec (section 6): `u64 length; bytes[length]`, the length
validated against `bound` before the payload is read. -/
def specStr (bound : Nat) (bs : List Byte) : Except DecodeError (Str × List Byte) :=
  match takeBytes 8 bs with
  | none => Except.error DecodeError.Truncated
  | some l =>
    if leValue l.1 > bound then Except.error DecodeError.OversizedLength
    else
      match takeBytes (leValue l.1) l.2 with
      | none => Except.error DecodeError.Truncated
      | some s => Except.ok s

/-- Follows the spec (section 6): `count` branches, each of length at most 1000000. -/
def specBranches : Nat → List Byte → Except DecodeError (List Str × List Byte)
  | 0, bs => Except.ok ([], bs)
  | k + 1, bs =>
    match specStr 1000000 bs with
    | Except.error e => Except.error e
    | Except.ok s =>
      match specBranches k s.2 with
      | Except.error e => Except.error e
      | Except.ok r => Except.ok (s.1 :: r.1, r.2)

/-- Follows the spec (section 6): owner, permissions, timestamp (each of length at
most 1000), then `u64 size`. -/
def specMeta (bs : List Byte) : Except DecodeError (FileMetadata × List Byte) :=
  match specStr 1000 bs with
  | Except.error e => Except.error e
  | Except.ok o =>
    match specStr 1000 o.2 with
    | Except.error e => Except.error e
    | Except.ok p =>
      match specStr 1000 p.2 with
      | Except.error e => Except.error e
      | Except.ok t =>
        match takeBytes 8 t.2 with
        | none => Except.error DecodeError.Truncated
        | some z => Except.ok (⟨o.1, p.1, t.1, leValue z.1⟩, z.2)

/-- Follows the spec (section 6): `count` metadata records. -/
def specMetas : Nat → List Byte → Except DecodeError (List FileMetadata × List Byte)
  | 0, bs => Except.ok ([], bs)
  | k + 1, bs =>
    match specMeta bs with
    | Except.error e => Except.error e
    | Except.ok m =>
      match specMetas k m.2 with
      | Except.error e => Except.error e
      | Except.ok r => Except.ok (m.1 :: r.1, r.2)

/-- Follows the spec (section 6): `f64 alpha; f64 beta; bool measured; i32 value`. -/
def specQubit (bs : List Byte) : Option (Qbit × List Byte) :=
  match takeBytes 8 bs with
  | none => none
  | some a =>
    match takeBytes 8 a.2 with
    | none => none
    | some b =>
      match takeBytes 1 b.2 with
      | none => none
      | some m =>
        match takeBytes 4 m.2 with
        | none => none
        | some v =>
          some (⟨leValue a.1, leValue b.1, byteBool (firstByte m.1), toInt32 (leValue v.1)⟩, v.2)

/-- Follows the spec (section 6): `count` qubit records. -/
def specQubits : Nat → List Byte → Option (List Qbit × List Byte)
  | 0, bs => some ([], bs)
  | k + 1, bs =>
    match specQubit bs with
    | none => none
    | some q =>
      match specQubits k q.2 with
      | none => none
      | some r => some (q.1 :: r.1, r.2)

/-- Follows the spec (sections 4.6, 6, 7): the decoder with its sanity bounds
(`branch_count ≤ 10000`, branch `length ≤ 1000000`, `metadata_count ≤ 10000`,
metadata string `length ≤ 1000`, `qubit_count ≤ 10000`), each checked before the
payload it announces is read. -/
def specDecode (bs : List Byte) : Except DecodeError Decoded :=
  match takeBytes 8 bs with
  | none => Except.error DecodeError.Truncated
  | some n =>
    if leValue n.1 > 10000 then Except.error DecodeError.OversizedCount
    else
      match specBranches (leValue n.1) n.2 with
      | Except.error e => Except.error e
      | Except.ok cs =>
        match takeBytes 8 cs.2 with
        | none => Except.error DecodeError.Truncated
        | some m =>
          if leValue m.1 > 10000 then Except.error DecodeError.OversizedCount
          else
            match specMetas (leValue m.1) m.2 with
            | Except.error e => Except.error e
            | Except.ok ms =>
              match takeBytes 8 ms.2 with
              | none => Except.error DecodeError.Truncated
              | some q =>
                if leValue q.1 > 10000 then Except.error DecodeError.OversizedCount
                else
                  match specQubits (leValue q.1) q.2 with
                  | none => Except.error DecodeError.Truncated
                  | some qs => Except.ok ⟨cs.1, ms.1, qs.1⟩

/-! ## Auxiliary definitions for the statements -/

/-- The integer fields of a record fit their machine types: `size` a `size_t`. -/
def FileMetadata.Fits (m : FileMetadata) : Prop := m.size < 18446744073709551616

/-- The fields of a qubit fit their machine types: two 64-bit patterns and an `int`. -/
def Qbit.Fits (q : Qbit) : Prop :=
  q.alpha < 18446744073709551616 ∧ q.beta < 18446744073709551616 ∧
    -2147483648 ≤ q.value ∧ q.value < 2147483648

instance (m : FileMetadata) : Decidable m.Fits := by
  unfold FileMetadata.Fits
  exact inferInstance

instance (q : Qbit) : Decidable q.Fits := by
  unfold Qbit.Fits
  exact inferInstance

/-- The store after a decode that replaced the three containers. -/
def QuantumFile.load (qf : QuantumFile) (d : Decoded) : QuantumFile :=
  { qf with possible_contents := d.branches, possible_metadata := d.metadata, qbits := d.qubits }

/-! ## The entanglement monitor (lines 69-99) and the file operations (lines 220-233) -/

/-- Address of a `QuantumFile` object. -/
abbrev Ptr := Nat

/-- The `QuantumFile` objects in memory, by address. -/
abbrev Heap := Ptr → QuantumFile

/-- Writing through a reference: the object at `p` becomes `qf`. -/
def Heap.store (σ : Heap) (p : Ptr) (qf : QuantumFile) : Heap :=
  fun x => if x = p then qf else σ x

/-- `struct Entanglement`. -/
structure Entanglement where
  fileA : Ptr
  fileB : Ptr
  active : Bool
  integrity_hash : Str
deriving DecidableEq

/-- Decimal digits of `n`, most significant first, in front of `acc`. -/
def decimalDigits : Nat → Nat → Str → Str
  | 0, _, acc => acc
  | fuel + 1, n, acc =>
    if n / 10 = 0 then byteOf (48 + n % 10) :: acc
    else decimalDigits fuel (n / 10) (byteOf (48 + n % 10) :: acc)

/-- `std::to_string` of an unsigned integer: its decimal digits in ASCII. -/
def to_string (n : Nat) : Str := decimalDigits (n + 1) n []

/-- The loop `for (const auto& c : qf.possible_contents) h ^= hasher(c);`. -/
def xorFold (hasher : Str → Nat) : List Str → Nat → Nat
  | [], h => h
  | c :: cs, h => xorFold hasher cs (h ^^^ hasher c)

/-- The function `compute_integrity`. `hasher` is `std::hash<std::string>`, which the
standard library supplies; its result is a `size_t`. -/
def compute_integrity (hasher : Str → Nat) (qf : QuantumFile) : Str :=
  to_string (xorFold hasher qf.possible_contents 0)

/-- The function `entangle`. -/
def entangle (hasher : Str → Nat) (σ : Heap) (ent : Entanglement) (a b : Ptr) : Entanglement :=
  { ent with
    fileA := a
    fileB := b
    active := true
    integrity_hash := compute_integrity hasher (σ a) ++ compute_integrity hasher (σ b) }

/-- The function `disentangle`. -/
def disentangle (ent : Entanglement) : Entanglement := { ent with active := false }

/-- The function `check_entanglement_integrity`. -/
def check_entanglement_integrity (hasher : Str → Nat) (σ : Heap) (ent : Entanglement) : Bool :=
  if !ent.active then true
  else
    decide (compute_integrity hasher (σ ent.fileA) ++ compute_integrity hasher (σ ent.fileB)
      = ent.integrity_hash)

/-- The function `edit_file`; `new_content` is the line read from the input. -/
def edit_file (qf : QuantumFile) (new_content : Str) : QuantumFile :=
  { qf with possible_contents := qf.possible_contents ++ [new_content] }

/-- The function `delete_file`. -/
def delete_file (qf : QuantumFile) : QuantumFile :=
  { qf with possible_contents := [], possible_metadata := [] }

/-- The number a string of decimal digits stands for. -/
def parseDec (s : Str) : Nat := s.foldl (fun a b => 10 * a + (b.val - 48)) 0

/-! ## `std::hash<std::string>` as libstdc++ implements it on a 64-bit target -/

/-- `shift_mix` of `hash_bytes.cc`: `v ^ (v >> 47)`. -/
def shiftMix (v : Nat) : Nat := v ^^^ (v >>> 47)

/-- The multiplier `(0xc6a4a793 << 32) + 0x5bd1e995`. -/
def hashMul : Nat := 14313749767032793493

/-- The seed `0xc70f6907` that `std::hash` passes to `_Hash_bytes`. -/
def hashSeed : Nat := 3339675911

/-- The main loop of `_Hash_bytes` over `k` blocks of 8 bytes:
`data = shift_mix(load(p) * mul) * mul; hash ^= data; hash *= mul;`
in 64-bit arithmetic. -/
def hashBlocks : Nat → List Byte → Nat → Nat
  | 0, _, h => h
  | k + 1, bs, h =>
    hashBlocks k (bs.drop 8)
      (((h ^^^ ((shiftMix ((leValue (bs.take 8) * hashMul) % 18446744073709551616) * hashMul)
          % 18446744073709551616)) * hashMul) % 18446744073709551616)

/-- The function `_Hash_bytes(s.data(), s.length(), 0xc70f6907)` of libstdc++, which
is `std::hash<std::string>` there: the blocks of 8 bytes, then the remaining
bytes, then the two final mixing steps. -/
def stdHash (s : Str) : Nat :=
  shiftMix ((shiftMix
    (if s.length % 8 ≠ 0 then
      ((hashBlocks (s.length / 8) s (hashSeed ^^^ ((s.length * hashMul) % 18446744073709551616))
          ^^^ leValue (s.drop (8 * (s.length / 8)))) * hashMul) % 18446744073709551616
    else hashBlocks (s.length / 8) s (hashSeed ^^^ ((s.length * hashMul) % 18446744073709551616)))
    * hashMul) % 18446744073709551616)

/-- The 16 characters ``Bra_aasEj`u>y`eU``. -/
def zeroHashLine : Str :=
  [66, 114, 97, 95, 97, 97, 115, 69, 106, 96, 117, 62, 121, 96, 101, 85]

/-! ## Concrete inputs -/

/-- A hash function that returns the length of the string. -/
def lengthHash : Str → Nat := fun s => s.length

/-- Two stores in memory: `a` at address 0, `b` at every other address. -/
def twoFiles (a b : QuantumFile) : Heap := fun p => if p = 0 then a else b

/-- An `Entanglement` object before `entangle` has been called on it. -/
def blankLink : Entanglement := ⟨0, 0, false, []⟩

/-- A store with three branches, no metadata and no qubits. -/
def threeBranches : QuantumFile :=
  { name := [102], possible_contents := [[1, 2, 3], [4], [5]], possible_metadata := [],
    qbits := [], observed_content := [], observed_metadata := FileMetadata.init }

/-- A store with two branches, one metadata record and one measured qubit. -/
def sampleFile : QuantumFile :=
  { name := [103], possible_contents := [[104, 105], []],
    possible_metadata := [⟨[117], [114, 119], [50, 48], 7⟩],
    qbits := [⟨4607182418800017408, 0, true, 0⟩],
    observed_content := [], observed_metadata := FileMetadata.init }

/-- Every uninitialised local starts as zero. -/
def zeroJunk : Uninit := fun _ _ => 0

/-- A stream declaring one branch of length 2000000. -/
def longBranchStream : List Byte := writeSizeT 1 ++ writeSizeT 2000000

/-- A stream declaring no branch, no metadata record and two qubits, that carries
one qubit record only. -/
def oneOfTwoQubits : List Byte :=
  writeSizeT 0 ++ (writeSizeT 0 ++ (writeSizeT 2 ++ writeQbit ⟨4607182418800017408, 0, true, 0⟩))

/-- The bytes `serialize` writes before the qubit records, for a store with the
branches `cs`, the metadata `ms` and `q` qubits. -/
def writeHeader (cs : List Str) (ms : List FileMetadata) (q : Nat) : List Byte :=
  writeSizeT cs.length ++ (writeAll writeStr cs ++
  (writeSizeT ms.length ++ (writeAll writeMeta ms ++ writeSizeT q)))

/-! ## Logic gates (lines 48-57) -/

/-- `enum class LogicGate`. -/
inductive LogicGate
  | AND
  | OR
  | NOT
deriving DecidableEq

/-- The value of an enumerator. -/
def LogicGate.code : LogicGate → Nat
  | LogicGate.AND => 0
  | LogicGate.OR => 1
  | LogicGate.NOT => 2

/-- The `return` statements of `apply_gate`: the three cases of the `switch` and the
`return false` after it. -/
inductive GateReturn
  | caseAND
  | caseOR
  | caseNOT
  | afterSwitch
deriving DecidableEq

/-- The body of `apply_gate` on the value the `switch` looks at: the `return`
statement that runs and what it returns. -/
def apply_gate_body (code : Nat) (a b : Bool) : GateReturn × Bool :=
  if code = 0 then (GateReturn.caseAND, a && b)
  else if code = 1 then (GateReturn.caseOR, a || b)
  else if code = 2 then (GateReturn.caseNOT, !a)
  else (GateReturn.afterSwitch, false)

/-- The function `apply_gate` (its callers pass both conditions). -/
def apply_gate (gate : LogicGate) (a b : Bool) : Bool :=
  (apply_gate_body gate.code a b).2

/-! ## `evolve_state` (lines 102-109) -/

/-- `std::to_string` of an `int`. -/
def to_string_int (v : Int) : Str :=
  if v < 0 then 45 :: to_string v.natAbs else to_string v.toNat

/-- The string `"Branch_" + std::to_string(branch_id) + "_State_" +
std::to_string(r % 100)`, where `r` is what `rand()` returned. -/
def branchText (branch_id : Int) (r : Nat) : Str :=
  [66, 114, 97, 110, 99, 104, 95] ++ (to_string_int branch_id ++
    ([95, 83, 116, 97, 116, 101, 95] ++ to_string (r % 100)))

/-- The record `{"user" + std::to_string(branch_id), "rw-r--r--", "2025-06-28",
static_cast<size_t>(r % 1000)}`, where `r` is what `rand()` returned. -/
def metaRecord (branch_id : Int) (r : Nat) : FileMetadata :=
  { owner := [117, 115, 101, 114] ++ to_string_int branch_id
    permissions := [114, 119, 45, 114, 45, 45, 114, 45, 45]
    timestamp := [50, 48, 50, 53, 45, 48, 54, 45, 50, 56]
    size := r % 1000 }

/-- The statement `qf.possible_contents.push_back(...)` of `evolve_state`. -/
def pushBranch (qf : QuantumFile) (branch_id : Int) (r : Nat) : QuantumFile :=
  { qf with possible_contents := qf.possible_contents ++ [branchText branch_id r] }

/-- The statements `FileMetadata meta = ...; qf.possible_metadata.push_back(meta);`. -/
def pushMetadata (qf : QuantumFile) (branch_id : Int) (r : Nat) : QuantumFile :=
  { qf with possible_metadata := qf.possible_metadata ++ [metaRecord branch_id r] }

/-- The function `evolve_state` run by one task on its own; `r1` and `r2` are the
values of its two calls of `rand()`. -/
def evolve_state (qf : QuantumFile) (branch_id : Int) (gate : LogicGate) (cond1 cond2 : Bool)
    (r1 r2 : Nat) : QuantumFile :=
  if apply_gate gate cond1 cond2 then pushMetadata (pushBranch qf branch_id r1) branch_id r2
  else qf

/-! ## The five threads of `main` (lines 313-322) -/

/-- Where a thread running `evolve_state` stands: before the gate test, before
taking the mutex, before each `push_back`, before releasing the mutex, done. -/
inductive Pc
  | start
  | lock
  | pushContent
  | pushMeta
  | unlock
  | finished
deriving DecidableEq

/-- The store, the mutex, the threads and the calls of `rand()` made so far. -/
structure Threads where
  qf : QuantumFile
  holder : Option Nat
  pc : Nat → Pc
  calls : Nat

/-- Thread `t` moves to `v`. -/
def setPc (pc : Nat → Pc) (t : Nat) (v : Pc) : Nat → Pc :=
  fun x => if x = t then v else pc x

/-- One step of thread `t`; `rand k` is the value of the `k`-th call of `rand()`.
A thread that waits for the mutex, or is done, does not move. -/
def taskStep (gate : LogicGate) (cond1 cond2 : Bool) (rand : Nat → Nat) (t : Nat)
    (s : Threads) : Threads :=
  match s.pc t with
  | Pc.start =>
    if apply_gate gate cond1 cond2 then { s with pc := setPc s.pc t Pc.lock }
    else { s with pc := setPc s.pc t Pc.finished }
  | Pc.lock =>
    match s.holder with
    | none => { s with holder := some t, pc := setPc s.pc t Pc.pushContent }
    | some _ => s
  | Pc.pushContent =>
    { s with
      qf := pushBranch s.qf (t : Int) (rand s.calls)
      calls := s.calls + 1
      pc := setPc s.pc t Pc.pushMeta }
  | Pc.pushMeta =>
    { s with
      qf := pushMetadata s.qf (t : Int) (rand s.calls)
      calls := s.calls + 1
      pc := setPc s.pc t Pc.unlock }
  | Pc.unlock => { s with holder := none, pc := setPc s.pc t Pc.finished }
  | Pc.finished => s

/-- The state when the five threads have been created. -/
def evolveInit (qf : QuantumFile) : Threads :=
  { qf := qf, holder := none, pc := fun _ => Pc.start, calls := 0 }

/-- An interleaving: the threads 0..4 take steps in the order the schedule names
them. -/
def runSchedule (gate : LogicGate) (cond1 cond2 : Bool) (rand : Nat → Nat) :
    List Nat → Threads → Threads
  | [], s => s
  | t :: ts, s =>
    runSchedule gate cond1 cond2 rand ts (if t < 5 then taskStep gate cond1 cond2 rand t s else s)

/-- All five threads are done, so that `join` returns for each. -/
def allFinished (s : Threads) : Prop := ∀ t, t < 5 → s.pc t = Pc.finished

instance (s : Threads) : Decidable (allFinished s) := by
  unfold allFinished
  exact inferInstance

/-- A thread is between taking and releasing the mutex. -/
def Pc.inside : Pc → Bool
  | Pc.pushContent => true
  | Pc.pushMeta => true
  | Pc.unlock => true
  | _ => false

/-- A thread has appended its branch. -/
def Pc.pushed : Pc → Bool
  | Pc.pushMeta => true
  | Pc.unlock => true
  | Pc.finished => true
  | _ => false

/-- The evolve command of `main` (cases 1 and 6): five threads with the ids 0..4, the
chosen gate and both conditions `true`, run in the interleaving `sched`. -/
def evolve (gate : LogicGate) (qf : QuantumFile) (rand : Nat → Nat) (sched : List Nat) : Threads :=
  runSchedule gate true true rand sched (evolveInit qf)

/-- What holds in every state of the five threads, `news` being the thread ids and
`rand()` values of the branches appended so far, in order. -/
structure EvolveInv (qf0 : QuantumFile) (s : Threads) (news : List (Nat × Nat)) : Prop where
  contents : s.qf.possible_contents
    = qf0.possible_contents ++ news.map (fun p => branchText (p.1 : Int) p.2)
  nodup : (news.map Prod.fst).Nodup
  mem : ∀ t, t ∈ news.map Prod.fst ↔ (s.pc t).pushed = true
  holder : ∀ t, s.holder = some t ↔ (s.pc t).inside = true
  idle : ∀ t, 5 ≤ t → s.pc t = Pc.start

/-- The number of steps a thread has behind it when the gate lets it through. -/
def Pc.rank : Pc → Nat
  | Pc.start => 0
  | Pc.lock => 1
  | Pc.pushContent => 2
  | Pc.pushMeta => 3
  | Pc.unlock => 4
  | Pc.finished => 5

/-- The number of steps the five threads have behind them. -/
def rankOf (pc : Nat → Pc) : Nat :=
  (pc 0).rank + (pc 1).rank + (pc 2).rank + (pc 3).rank + (pc 4).rank

/-- Thread `t` is one of the five and can take a step now: it is neither waiting for
a mutex that another thread holds nor done. -/
def moves (gate : LogicGate) (cond1 cond2 : Bool) (rand : Nat → Nat) (t : Nat)
    (s : Threads) : Bool :=
  decide (t < 5) && decide ((taskStep gate cond1 cond2 rand t s).pc t ≠ s.pc t)

/-- An execution: a schedule in which every thread named can take its step when its
turn comes, as under a scheduler that only runs threads that are ready. -/
def execution (gate : LogicGate) (cond1 cond2 : Bool) (rand : Nat → Nat) :
    List Nat → Threads → Bool
  | [], _ => true
  | t :: ts, s =>
    moves gate cond1 cond2 rand t s &&
      execution gate cond1 cond2 rand ts (taskStep gate cond1 cond2 rand t s)

/-! ## `measure` (lines 112-122) -/

/-- The function `measure`; `idx` is the value drawn by `dis(gen)`, which lies
between 0 and `size() - 1`. -/
def measure (qf : QuantumFile) (idx : Nat) : QuantumFile :=
  if !qf.possible_contents.isEmpty then
    if !qf.possible_metadata.isEmpty then
      { qf with
        observed_content := qf.possible_contents.getD idx []
        observed_metadata :=
          qf.possible_metadata.getD (idx % qf.possible_metadata.length) FileMetadata.init }
    else { qf with observed_content := qf.possible_contents.getD idx [] }
  else qf

/-! ## Qbit operations (lines 243-294) -/

/-- The bit pattern of `1.0`. -/
def float1 : Nat := 4607182418800017408

/-- The bit pattern of `2.0`. -/
def float2 : Nat := 4611686018427387904

/-- Double precision arithmetic on bit patterns, as the platform supplies it:
`+`, `-`, `/` and `std::sqrt`. -/
structure FloatOps where
  add : Nat → Nat → Nat
  sub : Nat → Nat → Nat
  div : Nat → Nat → Nat
  sqrt : Nat → Nat

/-- The function `create_qbit`. -/
def create_qbit (qf : QuantumFile) : QuantumFile :=
  { qf with qbits := qf.qbits ++ [⟨float1, 0, false, -1⟩] }

/-- The function `hadamard`. -/
def hadamard (fp : FloatOps) (q : Qbit) : Qbit :=
  { q with
    alpha := fp.div (fp.add q.alpha q.beta) (fp.sqrt float2)
    beta := fp.div (fp.sub q.alpha q.beta) (fp.sqrt float2) }

/-- The function `measure_qbit`; `sample` is the value of `d(gen)`. -/
def measure_qbit (q : Qbit) (sample : Bool) : Qbit :=
  if q.measured then q
  else
    { alpha := if (if sample then (1 : Int) else 0) = 0 then float1 else 0
      beta := if (if sample then (1 : Int) else 0) = 1 then float1 else 0
      measured := true
      value := if sample then 1 else 0 }

/-- A step on one qubit: `hadamard`, or `measure_qbit` with the value of `d(gen)`. -/
inductive QbitOp
  | hadamard
  | measure (sample : Bool)
deriving DecidableEq

/-- The effect of one step. -/
def QbitOp.apply (fp : FloatOps) : QbitOp → Qbit → Qbit
  | QbitOp.hadamard, q => KQuanFS.hadamard fp q
  | QbitOp.measure sample, q => measure_qbit q sample

/-- The effect of a sequence of steps, first to last. -/
def runOps (fp : FloatOps) : List QbitOp → Qbit → Qbit
  | [], q => q
  | op :: ops, q => runOps fp ops (op.apply fp q)

/-- The states a qubit is meant to be in: measured with value 0 or 1, or unmeasured
with value -1. -/
def Qbit.Consistent (q : Qbit) : Prop :=
  (q.measured = true ∧ (q.value = 0 ∨ q.value = 1)) ∨ (q.measured = false ∧ q.value = -1)

/-- What the qbit commands print. -/
inductive Report
  | noQbits
  | invalidIndex
  | hadamardApplied (idx : Nat)
  | alreadyMeasured (value : Int)
  | measuredValue (value : Int)
deriving DecidableEq

/-- The line `measure_qbit` prints. -/
def measure_qbit_report (q : Qbit) (sample : Bool) : Report :=
  if q.measured then Report.alreadyMeasured q.value
  else Report.measuredValue (if sample then 1 else 0)

/-- How a qbit command ends: it returns, leaving a store and the lines it printed, or
it evaluates `qf.qbits[idx]` with `idx` outside the vector, after which the
behaviour of the program is undefined. -/
inductive CliOutcome
  | returned (qf : QuantumFile) (printed : List Report)
  | outOfBounds (printed : List Report) (idx : Nat)
deriving DecidableEq

/-- The function `apply_hadamard`; `_first` and `idx` are the two values read from
the input, the second replacing the first. -/
def apply_hadamard (fp : FloatOps) (qf : QuantumFile) (_first idx : Nat) : CliOutcome :=
  if qf.qbits.isEmpty then CliOutcome.returned qf [Report.noQbits]
  else if idx ≥ qf.qbits.length then CliOutcome.returned qf [Report.invalidIndex]
  else
    match qf.qbits[idx]? with
    | none => CliOutcome.outOfBounds [] idx
    | some q =>
      CliOutcome.returned { qf with qbits := qf.qbits.set idx (hadamard fp q) }
        [Report.hadamardApplied idx]

/-- The function `measure_qbit_cli`; `idx` is the value read from the input and
`sample` the value of `d(gen)`. The test of the index prints and does not
return. -/
def measure_qbit_cli (qf : QuantumFile) (idx : Nat) (sample : Bool) : CliOutcome :=
  if qf.qbits.isEmpty then CliOutcome.returned qf [Report.noQbits]
  else
    match qf.qbits[idx]? with
    | none =>
      CliOutcome.outOfBounds (if idx ≥ qf.qbits.length then [Report.invalidIndex] else []) idx
    | some q =>
      CliOutcome.returned { qf with qbits := qf.qbits.set idx (measure_qbit q sample) }
        ((if idx ≥ qf.qbits.length then [Report.invalidIndex] else []) ++
          [measure_qbit_report q sample])

/-- Arithmetic that returns the pattern of `+0.0` everywhere, for inputs where the
values of the amplitudes play no part. -/
def zeroOps : FloatOps := ⟨fun _ _ => 0, fun _ _ => 0, fun _ _ => 0, fun _ => 0⟩

/-- A store with one branch, no metadata and one fresh qubit. -/
def oneQubit : QuantumFile := create_qbit
  { name := [65], possible_contents := [[105]], possible_metadata := [],
    qbits := [], observed_content := [], observed_metadata := FileMetadata.init }

/-- The stores of `measure`: three branches and one metadata record. -/
def threeAndOne : QuantumFile :=
  { threeBranches with possible_metadata := [⟨[117], [114], [50], 9⟩] }

/-- A generator whose `k`-th call returns `137 * k + 42`. -/
def sampleRand : Nat → Nat := fun k => 137 * k + 42

/-- An execution of 25 steps: all five threads pass the gate, then the critical
sections run in the order 3, 0, 4, 1, 2. -/
def sampleExecution : List Nat :=
  [0, 1, 2, 3, 4, 3, 3, 3, 3, 0, 0, 0, 0, 4, 4, 4, 4, 1, 1, 1, 1, 2, 2, 2, 2]

/-- An interleaving of the five threads in which thread 3 takes the mutex first,
the others try meanwhile, and the order of the critical sections is 3, 0, 4, 1, 2. -/
def sampleSchedule : List Nat :=
  [0, 3, 1, 3, 0, 3, 4, 2, 3, 1, 3, 0, 4, 0, 2, 0, 0, 4, 1, 4, 4, 2, 4, 1, 1, 1, 1, 2, 2, 2, 2]

/-! ## Object representations: basic facts -/

theorem leBytes_length (w n : Nat) : (leBytes w n).length = w := by
  induction w generalizing n with
  | zero => rfl
  | succ w ih => simp [leBytes, ih]

theorem leValue_leBytes (w n : Nat) : leValue (leBytes w n) = n % 256 ^ w := by
  induction w generalizing n with
  | zero => simp [leBytes, leValue, Nat.mod_one]
  | succ w ih =>
    simp only [leBytes, leValue, ih, byteOf]
    rw [pow_succ, mul_comm (256 ^ w) 256, Nat.mod_mul]

theorem leValue_lt (bs : List Byte) : leValue bs < 256 ^ bs.length := by
  induction bs with
  | nil => simp [leValue]
  | cons b bs ih =>
    simp only [leValue, List.length_cons, pow_succ]
    have hb := b.isLt
    omega

theorem leBytes_leValue (bs : List Byte) : leBytes bs.length (leValue bs) = bs := by
  induction bs with
  | nil => rfl
  | cons b bs ih =>
    have hb := b.isLt
    have h1 : (b.val + 256 * leValue bs) % 256 = b.val := by omega
    have h2 : (b.val + 256 * leValue bs) / 256 = leValue bs := by omega
    simp only [List.length_cons, leBytes, leValue, h2, ih, byteOf, h1]

theorem resize_length {α : Type} (d : α) (xs : List α) (n : Nat) :
    (resize d xs n).length = n := by
  simp only [resize, List.length_append, List.length_take, List.length_replicate]
  omega

theorem toInt32_intBits (v : Int) (h1 : -2147483648 ≤ v) (h2 : v < 2147483648) :
    toInt32 (intBits v % 4294967296) = v := by
  unfold toInt32 intBits
  have h3 : (0 : Int) ≤ v % 4294967296 := Int.emod_nonneg _ (by decide)
  have h4 : v % 4294967296 < 4294967296 := Int.emod_lt_of_pos _ (by decide)
  have h5 : ((v % 4294967296).toNat : Int) = v % 4294967296 := Int.toNat_of_nonneg h3
  have h6 : (v % 4294967296).toNat % 4294967296 = (v % 4294967296).toNat := by
    apply Nat.mod_eq_of_lt
    omega
  rw [h6]
  split_ifs with h
  · omega
  · omega

theorem byteBool_boolByte (b : Bool) : byteBool (boolByte b) = b := by
  cases b <;> decide

/-! ## Reading from a stream that has the bytes -/

theorem read_ok (rest mem : List Byte) (k : Nat) (hk : k ≤ rest.length)
    (hm : mem.length ≤ k) :
    IStream.read ⟨rest, false⟩ k mem = (rest.take k, ⟨rest.drop k, false⟩) := by
  simp [IStream.read, hk, List.drop_eq_nil_of_le hm]

theorem readSizeT_ok (rest : List Byte) (old : Nat) (hk : 8 ≤ rest.length) :
    readSizeT ⟨rest, false⟩ old = (leValue (rest.take 8), ⟨rest.drop 8, false⟩) := by
  simp [readSizeT, read_ok rest (leBytes 8 old) 8 hk (by simp [leBytes_length])]

theorem getD_append_cons {α : Type} (pre : List α) (x : α) (xs : List α) (d : α) :
    (pre ++ x :: xs).getD pre.length d = x := by
  induction pre with
  | nil => rfl
  | cons p pre ih => simpa using ih

theorem set_append_cons {α : Type} (pre : List α) (x y : α) (xs : List α) :
    (pre ++ x :: xs).set pre.length y = (pre ++ [y]) ++ xs := by
  induction pre with
  | nil => rfl
  | cons p pre ih => simp

/-! ## The length-prefixed string step against the specified one -/

theorem takeBytes_some (k : Nat) (bs : List Byte) (h : k ≤ bs.length) :
    takeBytes k bs = some (bs.take k, bs.drop k) := by
  simp [takeBytes, h]

theorem takeBytes_none (k : Nat) (bs : List Byte) (h : ¬ k ≤ bs.length) :
    takeBytes k bs = none := by
  simp [takeBytes, h]

theorem specStr_ok_inv (B : Nat) (bs : List Byte) (s : Str × List Byte)
    (h : specStr B bs = Except.ok s) :
    8 ≤ bs.length ∧ leValue (bs.take 8) = s.1.length ∧ s.1.length ≤ B ∧
      s.1.length ≤ (bs.drop 8).length ∧ s.1 = (bs.drop 8).take s.1.length ∧
      s.2 = (bs.drop 8).drop s.1.length := by
  by_cases h8 : 8 ≤ bs.length
  · simp only [specStr, takeBytes_some 8 bs h8] at h
    by_cases hB : leValue (bs.take 8) > B
    · simp only [hB, if_true] at h
      cases h
    · simp only [hB, if_false] at h
      by_cases hl : leValue (bs.take 8) ≤ (bs.drop 8).length
      · simp only [takeBytes_some _ _ hl] at h
        injection h with h
        subst h
        have hlen : ((bs.drop 8).take (leValue (bs.take 8))).length = leValue (bs.take 8) := by
          rw [List.length_take]; omega
        simp only [hlen]
        refine ⟨h8, trivial, by omega, hl, trivial, trivial⟩
      · simp only [takeBytes_none _ _ hl] at h
        cases h
  · simp only [specStr, takeBytes_none 8 bs h8] at h
    cases h

theorem specStr_oversized_inv (B : Nat) (bs : List Byte)
    (h : specStr B bs = Except.error DecodeError.OversizedLength) :
    8 ≤ bs.length ∧ leValue (bs.take 8) > B := by
  by_cases h8 : 8 ≤ bs.length
  · simp only [specStr, takeBytes_some 8 bs h8] at h
    by_cases hB : leValue (bs.take 8) > B
    · exact ⟨h8, hB⟩
    · simp only [hB, if_false] at h
      by_cases hl : leValue (bs.take 8) ≤ (bs.drop 8).length
      · simp only [takeBytes_some _ _ hl] at h
        cases h
      · simp only [takeBytes_none _ _ hl] at h
        cases h
  · simp only [specStr, takeBytes_none 8 bs h8] at h
    cases h

theorem specStr_not_count (B : Nat) (bs : List Byte) :
    specStr B bs ≠ Except.error DecodeError.OversizedCount := by
  intro h
  by_cases h8 : 8 ≤ bs.length
  · simp only [specStr, takeBytes_some 8 bs h8] at h
    by_cases hB : leValue (bs.take 8) > B
    · simp only [hB, if_true] at h
      cases h
    · simp only [hB, if_false] at h
      by_cases hl : leValue (bs.take 8) ≤ (bs.drop 8).length
      · simp only [takeBytes_some _ _ hl] at h
        cases h
      · simp only [takeBytes_none _ _ hl] at h
        cases h
  · simp only [specStr, takeBytes_none 8 bs h8] at h
    cases h

/-- The code's `read length; check; resize; read payload` on a stream where the
specified step succeeds. -/
theorem str_step_ok (B : Nat) (bs : List Byte) (s : Str × List Byte)
    (h : specStr B bs = Except.ok s) (old : Nat) (x : Str) :
    readSizeT ⟨bs, false⟩ old = (s.1.length, ⟨bs.drop 8, false⟩) ∧ ¬ s.1.length > B ∧
      IStream.read ⟨bs.drop 8, false⟩ s.1.length (resize 0 x s.1.length)
        = (s.1, ⟨s.2, false⟩) := by
  obtain ⟨h8, hv, hB, hl, h1, h2⟩ := specStr_ok_inv B bs s h
  refine ⟨?_, by omega, ?_⟩
  · rw [readSizeT_ok bs old h8, hv]
  · rw [read_ok _ _ _ hl (by rw [resize_length]), ← h1, ← h2]

theorem str_step_oversized (B : Nat) (bs : List Byte)
    (h : specStr B bs = Except.error DecodeError.OversizedLength) (old : Nat) :
    (readSizeT ⟨bs, false⟩ old).1 > B ∧ (readSizeT ⟨bs, false⟩ old).2 = ⟨bs.drop 8, false⟩ := by
  obtain ⟨h8, hB⟩ := specStr_oversized_inv B bs h
  rw [readSizeT_ok bs old h8]
  exact ⟨hB, rfl⟩

/-! ## The contents loop -/

theorem specBranches_not_count (k : Nat) (bs : List Byte) :
    specBranches k bs ≠ Except.error DecodeError.OversizedCount := by
  induction k generalizing bs with
  | zero => simp [specBranches]
  | succ k ih =>
    intro h
    unfold specBranches at h
    cases hs : specStr 1000000 bs with
    | error e =>
      simp only [hs, Except.error.injEq] at h
      subst h
      exact specStr_not_count _ _ hs
    | ok s =>
      simp only [hs] at h
      cases hr : specBranches k s.2 with
      | error e =>
        simp only [hr, Except.error.injEq] at h
        subst h
        exact ih _ hr
      | ok r =>
        simp only [hr] at h
        cases h

theorem readContents_ok (junk : Uninit) (k : Nat) :
    ∀ (bs : List Byte) (r : List Str × List Byte), specBranches k bs = Except.ok r →
    ∀ (pre old : List Str), old.length = k →
      readContents junk k pre.length (pre ++ old) ⟨bs, false⟩ = (pre ++ r.1, ⟨r.2, false⟩, none) := by
  induction k with
  | zero =>
    intro bs r h pre old ho
    simp only [specBranches, Except.ok.injEq] at h
    subst h
    have : old = [] := List.length_eq_zero.mp ho
    subst this
    simp [readContents]
  | succ k ih =>
    intro bs r h pre old ho
    unfold specBranches at h
    cases hs : specStr 1000000 bs with
    | error e => simp [hs] at h
    | ok s =>
      simp only [hs] at h
      cases hr : specBranches k s.2 with
      | error e => simp [hr] at h
      | ok r2 =>
        simp only [hr, Except.ok.injEq] at h
        subst h
        obtain ⟨o, old2, rfl⟩ := List.exists_cons_of_length_eq_add_one ho
        have ho2 : old2.length = k := by simpa using ho
        obtain ⟨a1, a2, a3⟩ := str_step_ok 1000000 bs s hs (junk Local.len pre.length) o
        unfold readContents
        simp only [a1, a2, if_false, getD_append_cons, a3, set_append_cons]
        have := ih s.2 r2 hr (pre ++ [s.1]) old2 ho2
        simpa using this

theorem readContents_oversized (junk : Uninit) (k : Nat) :
    ∀ (bs : List Byte), specBranches k bs = Except.error DecodeError.OversizedLength →
    ∀ (pre old : List Str), old.length = k →
      (readContents junk k pre.length (pre ++ old) ⟨bs, false⟩).2.2 = some Exit.contentTooLong ∧
      ∃ fresh : List Str, fresh.length < k ∧
        (readContents junk k pre.length (pre ++ old) ⟨bs, false⟩).1
          = pre ++ (fresh ++ old.drop fresh.length) := by
  induction k with
  | zero =>
    intro bs h
    simp [specBranches] at h
  | succ k ih =>
    intro bs h pre old ho
    obtain ⟨o, old2, rfl⟩ := List.exists_cons_of_length_eq_add_one ho
    have ho2 : old2.length = k := by simpa using ho
    unfold specBranches at h
    cases hs : specStr 1000000 bs with
    | error e =>
      simp only [hs, Except.error.injEq] at h
      subst h
      obtain ⟨b1, _⟩ := str_step_oversized 1000000 bs hs (junk Local.len pre.length)
      unfold readContents
      simp only [b1, if_true]
      exact ⟨trivial, [], by simp, by simp⟩
    | ok s =>
      simp only [hs] at h
      cases hr : specBranches k s.2 with
      | ok r2 => simp [hr] at h
      | error e =>
        simp only [hr, Except.error.injEq] at h
        subst h
        obtain ⟨a1, a2, a3⟩ := str_step_ok 1000000 bs s hs (junk Local.len pre.length) o
        unfold readContents
        simp only [a1, a2, if_false, getD_append_cons, a3, set_append_cons]
        obtain ⟨c1, fresh, c2, c3⟩ := ih s.2 hr (pre ++ [s.1]) old2 ho2
        have hlen : (pre ++ [s.1]).length = pre.length + 1 := by simp
        rw [hlen] at c1 c3
        refine ⟨c1, s.1 :: fresh, by simp; omega, ?_⟩
        rw [c3]
        simp

/-! ## The metadata loop -/

theorem specMeta_ok_inv (bs : List Byte) (m : FileMetadata × List Byte)
    (h : specMeta bs = Except.ok m) :
    ∃ o p t : Str × List Byte, specStr 1000 bs = Except.ok o ∧ specStr 1000 o.2 = Except.ok p ∧
      specStr 1000 p.2 = Except.ok t ∧ 8 ≤ t.2.length ∧
      m = (⟨o.1, p.1, t.1, leValue (t.2.take 8)⟩, t.2.drop 8) := by
  unfold specMeta at h
  cases ho : specStr 1000 bs with
  | error e => simp only [ho] at h; cases h
  | ok o =>
    simp only [ho] at h
    cases hp : specStr 1000 o.2 with
    | error e => simp only [hp] at h; cases h
    | ok p =>
      simp only [hp] at h
      cases ht : specStr 1000 p.2 with
      | error e => simp only [ht] at h; cases h
      | ok t =>
        simp only [ht] at h
        by_cases h8 : 8 ≤ t.2.length
        · simp only [takeBytes_some 8 _ h8] at h
          injection h with h
          exact ⟨o, p, t, rfl, hp, ht, h8, h.symm⟩
        · simp only [takeBytes_none 8 _ h8] at h
          cases h

theorem specMeta_oversized_inv (bs : List Byte)
    (h : specMeta bs = Except.error DecodeError.OversizedLength) :
    specStr 1000 bs = Except.error DecodeError.OversizedLength ∨
    (∃ o : Str × List Byte, specStr 1000 bs = Except.ok o ∧
      specStr 1000 o.2 = Except.error DecodeError.OversizedLength) ∨
    (∃ o p : Str × List Byte, specStr 1000 bs = Except.ok o ∧ specStr 1000 o.2 = Except.ok p ∧
      specStr 1000 p.2 = Except.error DecodeError.OversizedLength) := by
  unfold specMeta at h
  cases ho : specStr 1000 bs with
  | error e =>
    simp only [ho, Except.error.injEq] at h
    subst h
    exact Or.inl rfl
  | ok o =>
    simp only [ho] at h
    cases hp : specStr 1000 o.2 with
    | error e =>
      simp only [hp, Except.error.injEq] at h
      subst h
      exact Or.inr (Or.inl ⟨o, rfl, hp⟩)
    | ok p =>
      simp only [hp] at h
      cases ht : specStr 1000 p.2 with
      | error e =>
        simp only [ht, Except.error.injEq] at h
        subst h
        exact Or.inr (Or.inr ⟨o, p, rfl, hp, ht⟩)
      | ok t =>
        simp only [ht] at h
        by_cases h8 : 8 ≤ t.2.length
        · simp only [takeBytes_some 8 _ h8] at h
          cases h
        · simp only [takeBytes_none 8 _ h8] at h
          cases h

theorem specMeta_not_count (bs : List Byte) :
    specMeta bs ≠ Except.error DecodeError.OversizedCount := by
  intro h
  unfold specMeta at h
  cases ho : specStr 1000 bs with
  | error e =>
    simp only [ho, Except.error.injEq] at h
    subst h
    exact specStr_not_count _ _ ho
  | ok o =>
    simp only [ho] at h
    cases hp : specStr 1000 o.2 with
    | error e =>
      simp only [hp, Except.error.injEq] at h
      subst h
      exact specStr_not_count _ _ hp
    | ok p =>
      simp only [hp] at h
      cases ht : specStr 1000 p.2 with
      | error e =>
        simp only [ht, Except.error.injEq] at h
        subst h
        exact specStr_not_count _ _ ht
      | ok t =>
        simp only [ht] at h
        by_cases h8 : 8 ≤ t.2.length
        · simp only [takeBytes_some 8 _ h8] at h
          cases h
        · simp only [takeBytes_none 8 _ h8] at h
          cases h

theorem specMetas_not_count (k : Nat) (bs : List Byte) :
    specMetas k bs ≠ Except.error DecodeError.OversizedCount := by
  induction k generalizing bs with
  | zero => simp [specMetas]
  | succ k ih =>
    intro h
    unfold specMetas at h
    cases hs : specMeta bs with
    | error e =>
      simp only [hs, Except.error.injEq] at h
      subst h
      exact specMeta_not_count _ hs
    | ok s =>
      simp only [hs] at h
      cases hr : specMetas k s.2 with
      | error e =>
        simp only [hr, Except.error.injEq] at h
        subst h
        exact ih _ hr
      | ok r =>
        simp only [hr] at h
        cases h

theorem readMetadata_ok (junk : Uninit) (k : Nat) :
    ∀ (bs : List Byte) (r : List FileMetadata × List Byte), specMetas k bs = Except.ok r →
    ∀ (pre old : List FileMetadata), old.length = k →
      readMetadata junk k pre.length (pre ++ old) ⟨bs, false⟩
        = (pre ++ r.1, ⟨r.2, false⟩, none) := by
  induction k with
  | zero =>
    intro bs r h pre old ho
    simp only [specMetas, Except.ok.injEq] at h
    subst h
    have : old = [] := List.length_eq_zero.mp ho
    subst this
    simp [readMetadata]
  | succ k ih =>
    intro bs r h pre old ho
    unfold specMetas at h
    cases hs : specMeta bs with
    | error e => simp only [hs] at h; cases h
    | ok s =>
      simp only [hs] at h
      cases hr : specMetas k s.2 with
      | error e => simp only [hr] at h; cases h
      | ok r2 =>
        simp only [hr, Except.ok.injEq] at h
        subst h
        obtain ⟨e, old2, rfl⟩ := List.exists_cons_of_length_eq_add_one ho
        have ho2 : old2.length = k := by simpa using ho
        obtain ⟨o, p, t, ho, hp, ht, h8, rfl⟩ := specMeta_ok_inv bs s hs
        obtain ⟨a1, a2, a3⟩ := str_step_ok 1000 bs o ho (junk Local.len_owner pre.length) e.owner
        obtain ⟨b1, b2, b3⟩ := str_step_ok 1000 o.2 p hp (junk Local.len_perm pre.length) e.permissions
        obtain ⟨c1, c2, c3⟩ := str_step_ok 1000 p.2 t ht (junk Local.len_time pre.length) e.timestamp
        have d1 := readSizeT_ok t.2 e.size h8
        unfold readMetadata
        simp only [getD_append_cons, a1, a2, if_false, a3, b1, b2, b3, c1, c2, c3, d1,
          set_append_cons]
        have := ih (t.2.drop 8) r2 hr (pre ++ [⟨o.1, p.1, t.1, leValue (t.2.take 8)⟩]) old2 ho2
        simpa using this

/-- What the metadata loop leaves behind when it returns at a string length: the
records before the failing one are fresh, the failing record keeps every field
from the rejected one on, and the records after it are untouched. -/
theorem readMetadata_oversized (junk : Uninit) (k : Nat) :
    ∀ (bs : List Byte), specMetas k bs = Except.error DecodeError.OversizedLength →
    ∀ (pre old : List FileMetadata), old.length = k →
      ∃ (x : Exit) (fresh : List FileMetadata) (e : FileMetadata),
        (readMetadata junk k pre.length (pre ++ old) ⟨bs, false⟩).2.2 = some x ∧
        (x = Exit.ownerTooLong ∨ x = Exit.permTooLong ∨ x = Exit.timeTooLong) ∧
        fresh.length < k ∧
        (readMetadata junk k pre.length (pre ++ old) ⟨bs, false⟩).1
          = pre ++ (fresh ++ e :: old.drop (fresh.length + 1)) ∧
        e.size = (old.getD fresh.length FileMetadata.init).size ∧
        e.timestamp = (old.getD fresh.length FileMetadata.init).timestamp ∧
        (x ≠ Exit.timeTooLong →
          e.permissions = (old.getD fresh.length FileMetadata.init).permissions) ∧
        (x = Exit.ownerTooLong → e = old.getD fresh.length FileMetadata.init) := by
  induction k with
  | zero =>
    intro bs h
    simp [specMetas] at h
  | succ k ih =>
    intro bs h pre old hold
    obtain ⟨e, old2, rfl⟩ := List.exists_cons_of_length_eq_add_one hold
    have ho2 : old2.length = k := by simpa using hold
    unfold specMetas at h
    cases hs : specMeta bs with
    | error err =>
      simp only [hs, Except.error.injEq] at h
      subst h
      rcases specMeta_oversized_inv bs hs with ho | ⟨o, ho, hp⟩ | ⟨o, p, ho, hp, ht⟩
      · obtain ⟨a1, _⟩ := str_step_oversized 1000 bs ho (junk Local.len_owner pre.length)
        refine ⟨Exit.ownerTooLong, [], e, ?_, Or.inl rfl, by simp, ?_, rfl, rfl, fun _ => rfl,
          fun _ => rfl⟩
        · unfold readMetadata
          simp only [a1, if_true]
        · unfold readMetadata
          simp only [a1, if_true]
          simp
      · obtain ⟨a1, a2, a3⟩ := str_step_ok 1000 bs o ho (junk Local.len_owner pre.length) e.owner
        obtain ⟨b1, _⟩ := str_step_oversized 1000 o.2 hp (junk Local.len_perm pre.length)
        refine ⟨Exit.permTooLong, [], { e with owner := o.1 }, ?_, Or.inr (Or.inl rfl), by simp,
          ?_, rfl, rfl, fun _ => rfl, fun hx => by cases hx⟩
        · unfold readMetadata
          simp only [getD_append_cons, a1, a2, if_false, a3, b1, if_true]
        · unfold readMetadata
          simp only [getD_append_cons, a1, a2, if_false, a3, b1, if_true, set_append_cons]
          simp
      · obtain ⟨a1, a2, a3⟩ := str_step_ok 1000 bs o ho (junk Local.len_owner pre.length) e.owner
        obtain ⟨b1, b2, b3⟩ := str_step_ok 1000 o.2 p hp (junk Local.len_perm pre.length) e.permissions
        obtain ⟨c1, _⟩ := str_step_oversized 1000 p.2 ht (junk Local.len_time pre.length)
        refine ⟨Exit.timeTooLong, [], { e with owner := o.1, permissions := p.1 }, ?_,
          Or.inr (Or.inr rfl), by simp, ?_, rfl, rfl, fun hx => absurd rfl hx, fun hx => by cases hx⟩
        · unfold readMetadata
          simp only [getD_append_cons, a1, a2, if_false, a3, b1, b2, b3, c1, if_true]
        · unfold readMetadata
          simp only [getD_append_cons, a1, a2, if_false, a3, b1, b2, b3, c1, if_true,
            set_append_cons]
          simp
    | ok s =>
      simp only [hs] at h
      cases hr : specMetas k s.2 with
      | ok r2 => simp only [hr] at h; cases h
      | error err =>
        simp only [hr, Except.error.injEq] at h
        subst h
        obtain ⟨o, p, t, ho, hp, ht, h8, rfl⟩ := specMeta_ok_inv bs s hs
        obtain ⟨a1, a2, a3⟩ := str_step_ok 1000 bs o ho (junk Local.len_owner pre.length) e.owner
        obtain ⟨b1, b2, b3⟩ := str_step_ok 1000 o.2 p hp (junk Local.len_perm pre.length) e.permissions
        obtain ⟨c1, c2, c3⟩ := str_step_ok 1000 p.2 t ht (junk Local.len_time pre.length) e.timestamp
        have d1 := readSizeT_ok t.2 e.size h8
        obtain ⟨x, fresh, e2, g1, g2, g3, g4, g5, g6, g7, g8⟩ :=
          ih (t.2.drop 8) hr (pre ++ [⟨o.1, p.1, t.1, leValue (t.2.take 8)⟩]) old2 ho2
        have hlen : (pre ++ [(⟨o.1, p.1, t.1, leValue (t.2.take 8)⟩ : FileMetadata)]).length
            = pre.length + 1 := by simp
        rw [hlen] at g1 g4
        refine ⟨x, ⟨o.1, p.1, t.1, leValue (t.2.take 8)⟩ :: fresh, e2, ?_, g2, by simp; omega, ?_,
          by simpa using g5, by simpa using g6, by simpa using g7, by simpa using g8⟩
        · unfold readMetadata
          simp only [getD_append_cons, a1, a2, if_false, a3, b1, b2, b3, c1, c2, c3, d1,
            set_append_cons]
          exact g1
        · unfold readMetadata
          simp only [getD_append_cons, a1, a2, if_false, a3, b1, b2, b3, c1, c2, c3, d1,
            set_append_cons]
          rw [g4]
          simp

/-! ## The qbit loop -/

theorem specQubit_some_inv (bs : List Byte) (q : Qbit × List Byte) (h : specQubit bs = some q) :
    21 ≤ bs.length ∧
      q = (⟨leValue (bs.take 8), leValue ((bs.drop 8).take 8),
            byteBool (firstByte (((bs.drop 8).drop 8).take 1)),
            toInt32 (leValue ((((bs.drop 8).drop 8).drop 1).take 4))⟩,
          (((bs.drop 8).drop 8).drop 1).drop 4) := by
  unfold specQubit at h
  by_cases h1 : 8 ≤ bs.length
  · simp only [takeBytes_some 8 _ h1] at h
    by_cases h2 : 8 ≤ (bs.drop 8).length
    · simp only [takeBytes_some 8 _ h2] at h
      by_cases h3 : 1 ≤ ((bs.drop 8).drop 8).length
      · simp only [takeBytes_some 1 _ h3] at h
        by_cases h4 : 4 ≤ (((bs.drop 8).drop 8).drop 1).length
        · simp only [takeBytes_some 4 _ h4] at h
          injection h with h
          refine ⟨?_, h.symm⟩
          simp only [List.length_drop] at h4
          omega
        · simp only [takeBytes_none 4 _ h4] at h
          cases h
      · simp only [takeBytes_none 1 _ h3] at h
        cases h
    · simp only [takeBytes_none 8 _ h2] at h
      cases h
  · simp only [takeBytes_none 8 _ h1] at h
    cases h

theorem readQbit_ok (bs : List Byte) (q : Qbit × List Byte) (h : specQubit bs = some q)
    (e : Qbit) : readQbit e ⟨bs, false⟩ = (q.1, ⟨q.2, false⟩) := by
  obtain ⟨hlen, rfl⟩ := specQubit_some_inv bs q h
  have h1 : 8 ≤ bs.length := by omega
  have h2 : 8 ≤ (bs.drop 8).length := by simp only [List.length_drop]; omega
  have h3 : 1 ≤ ((bs.drop 8).drop 8).length := by simp only [List.length_drop]; omega
  have h4 : 4 ≤ (((bs.drop 8).drop 8).drop 1).length := by simp only [List.length_drop]; omega
  unfold readQbit
  simp only [readSizeT_ok bs e.alpha h1, readSizeT_ok (bs.drop 8) e.beta h2,
    read_ok ((bs.drop 8).drop 8) [boolByte e.measured] 1 h3 (by simp),
    read_ok (((bs.drop 8).drop 8).drop 1) (leBytes 4 (intBits e.value)) 4 h4
      (by simp [leBytes_length])]

theorem readQbits_ok (k : Nat) :
    ∀ (bs : List Byte) (r : List Qbit × List Byte), specQubits k bs = some r →
    ∀ (pre old suf : List Qbit), old.length = k →
      readQbits k pre.length (pre ++ (old ++ suf)) ⟨bs, false⟩
        = (pre ++ (r.1 ++ suf), ⟨r.2, false⟩) := by
  induction k with
  | zero =>
    intro bs r h pre old suf ho
    simp only [specQubits, Option.some.injEq] at h
    subst h
    have : old = [] := List.length_eq_zero.mp ho
    subst this
    simp [readQbits]
  | succ k ih =>
    intro bs r h pre old suf ho
    unfold specQubits at h
    cases hs : specQubit bs with
    | none => simp only [hs] at h; cases h
    | some s =>
      simp only [hs] at h
      cases hr : specQubits k s.2 with
      | none => simp only [hr] at h; cases h
      | some r2 =>
        simp only [hr, Option.some.injEq] at h
        subst h
        obtain ⟨e, old2, rfl⟩ := List.exists_cons_of_length_eq_add_one ho
        have ho2 : old2.length = k := by simpa using ho
        unfold readQbits
        simp only [List.cons_append, getD_append_cons, readQbit_ok bs s hs e, set_append_cons]
        have := ih s.2 r2 hr (pre ++ [s.1]) old2 suf ho2
        simpa using this

/-! ## `deserialize` against the specified decoder -/

theorem deserialize_of_specDecode_ok (qf : QuantumFile) (junk : Uninit) (bs : List Byte)
    (d : Decoded) (h : specDecode bs = Except.ok d) :
    deserialize qf junk (some bs) = (qf.load d, Exit.completed) := by
  unfold specDecode at h
  by_cases h1 : 8 ≤ bs.length
  · simp only [takeBytes_some 8 _ h1] at h
    by_cases hn : leValue (bs.take 8) > 10000
    · simp only [hn, if_true] at h
      cases h
    · simp only [hn, if_false] at h
      cases hc : specBranches (leValue (bs.take 8)) (bs.drop 8) with
      | error e => simp only [hc] at h; cases h
      | ok cs =>
        simp only [hc] at h
        by_cases h2 : 8 ≤ cs.2.length
        · simp only [takeBytes_some 8 _ h2] at h
          by_cases hm : leValue (cs.2.take 8) > 10000
          · simp only [hm, if_true] at h
            cases h
          · simp only [hm, if_false] at h
            cases hms : specMetas (leValue (cs.2.take 8)) (cs.2.drop 8) with
            | error e => simp only [hms] at h; cases h
            | ok ms =>
              simp only [hms] at h
              by_cases h3 : 8 ≤ ms.2.length
              · simp only [takeBytes_some 8 _ h3] at h
                by_cases hq : leValue (ms.2.take 8) > 10000
                · simp only [hq, if_true] at h
                  cases h
                · simp only [hq, if_false] at h
                  cases hqs : specQubits (leValue (ms.2.take 8)) (ms.2.drop 8) with
                  | none => simp only [hqs] at h; cases h
                  | some qs =>
                    simp only [hqs, Except.ok.injEq] at h
                    subst h
                    have e1 := readContents_ok junk _ _ cs hc []
                      (resize [] qf.possible_contents (leValue (bs.take 8))) (resize_length _ _ _)
                    have e2 := readMetadata_ok junk _ _ ms hms []
                      (resize FileMetadata.init qf.possible_metadata (leValue (cs.2.take 8)))
                      (resize_length _ _ _)
                    have e3 := readQbits_ok _ _ qs hqs []
                      (resize Qbit.init qf.qbits (leValue (ms.2.take 8))) [] (resize_length _ _ _)
                    simp only [List.length_nil, List.nil_append, List.append_nil] at e1 e2 e3
                    simp only [deserialize, readSizeT_ok bs _ h1, hn, if_false, e1,
                      readSizeT_ok cs.2 _ h2, hm, e2, readSizeT_ok ms.2 _ h3, hq, e3,
                      QuantumFile.load]
              · simp only [takeBytes_none 8 _ h3] at h
                cases h
        · simp only [takeBytes_none 8 _ h2] at h
          cases h
  · simp only [takeBytes_none 8 _ h1] at h
    cases h

/-! ## What `serialize` writes decodes to what was written -/

theorem takeBytes_append (a rest : List Byte) :
    takeBytes a.length (a ++ rest) = some (a, rest) := by
  simp [takeBytes]

theorem takeBytes_leBytes (w n : Nat) (rest : List Byte) :
    takeBytes w (leBytes w n ++ rest) = some (leBytes w n, rest) := by
  have := takeBytes_append (leBytes w n) rest
  rwa [leBytes_length] at this

theorem leValue_leBytes8 (n : Nat) (h : n < 18446744073709551616) :
    leValue (leBytes 8 n) = n := by
  rw [leValue_leBytes]
  exact Nat.mod_eq_of_lt (by norm_num; exact h)

theorem specStr_writeStr (B : Nat) (s : Str) (rest : List Byte) (hB : s.length ≤ B)
    (h64 : s.length < 18446744073709551616) :
    specStr B (writeStr s ++ rest) = Except.ok (s, rest) := by
  have h1 : ¬ s.length > B := by omega
  have h2 := leValue_leBytes8 _ h64
  unfold specStr
  rw [writeStr, writeSizeT, List.append_assoc, takeBytes_leBytes]
  dsimp only
  rw [h2]
  simp only [h1, if_false]
  rw [takeBytes_append]

theorem specBranches_writeAll (cs : List Str) (rest : List Byte)
    (hc : ∀ c ∈ cs, c.length ≤ 1000000) :
    specBranches cs.length (writeAll writeStr cs ++ rest) = Except.ok (cs, rest) := by
  induction cs with
  | nil => simp [specBranches, writeAll]
  | cons c cs ih =>
    have h1 : c.length ≤ 1000000 := hc c (List.mem_cons_self _ _)
    have h2 := ih (fun x hx => hc x (List.mem_cons_of_mem _ hx))
    have h3 := specStr_writeStr 1000000 c (writeAll writeStr cs ++ rest) h1 (by omega)
    simp only [List.length_cons, specBranches, writeAll, List.append_assoc, h3, h2]

theorem specMeta_writeMeta (m : FileMetadata) (rest : List Byte)
    (ho : m.owner.length ≤ 1000) (hp : m.permissions.length ≤ 1000)
    (ht : m.timestamp.length ≤ 1000) (hs : m.Fits) :
    specMeta (writeMeta m ++ rest) = Except.ok (m, rest) := by
  have h1 := specStr_writeStr 1000 m.owner
    (writeStr m.permissions ++ (writeStr m.timestamp ++ (leBytes 8 m.size ++ rest))) ho (by omega)
  have h2 := specStr_writeStr 1000 m.permissions
    (writeStr m.timestamp ++ (leBytes 8 m.size ++ rest)) hp (by omega)
  have h3 := specStr_writeStr 1000 m.timestamp (leBytes 8 m.size ++ rest) ht (by omega)
  have h4 := leValue_leBytes8 m.size hs
  unfold specMeta
  simp only [writeMeta, writeSizeT, List.append_assoc, h1, h2, h3, takeBytes_leBytes, h4]

theorem specMetas_writeAll (ms : List FileMetadata) (rest : List Byte)
    (hm : ∀ m ∈ ms, m.owner.length ≤ 1000 ∧ m.permissions.length ≤ 1000 ∧
      m.timestamp.length ≤ 1000 ∧ m.Fits) :
    specMetas ms.length (writeAll writeMeta ms ++ rest) = Except.ok (ms, rest) := by
  induction ms with
  | nil => simp [specMetas, writeAll]
  | cons m ms ih =>
    obtain ⟨a, b, c, d⟩ := hm m (List.mem_cons_self _ _)
    have h2 := ih (fun x hx => hm x (List.mem_cons_of_mem _ hx))
    have h3 := specMeta_writeMeta m (writeAll writeMeta ms ++ rest) a b c d
    simp only [List.length_cons, specMetas, writeAll, List.append_assoc, h3, h2]

theorem specQubit_writeQbit (q : Qbit) (rest : List Byte) (hq : q.Fits) :
    specQubit (writeQbit q ++ rest) = some (q, rest) := by
  obtain ⟨ha, hb, hv1, hv2⟩ := hq
  have h1 : takeBytes 1 (boolByte q.measured :: (leBytes 4 (intBits q.value) ++ rest))
      = some ([boolByte q.measured], leBytes 4 (intBits q.value) ++ rest) :=
    takeBytes_append [boolByte q.measured] _
  have h2 : toInt32 (leValue (leBytes 4 (intBits q.value))) = q.value := by
    rw [leValue_leBytes]
    exact toInt32_intBits q.value hv1 hv2
  have h3 := leValue_leBytes8 q.alpha ha
  have h4 := leValue_leBytes8 q.beta hb
  unfold specQubit
  simp only [writeQbit, List.append_assoc, List.cons_append, takeBytes_leBytes,
    h3, h4, h1, firstByte, byteBool_boolByte, h2]

theorem specQubits_writeAll (qs : List Qbit) (rest : List Byte) (hq : ∀ q ∈ qs, q.Fits) :
    specQubits qs.length (writeAll writeQbit qs ++ rest) = some (qs, rest) := by
  induction qs with
  | nil => simp [specQubits, writeAll]
  | cons q qs ih =>
    have h1 := hq q (List.mem_cons_self _ _)
    have h2 := ih (fun x hx => hq x (List.mem_cons_of_mem _ hx))
    have h3 := specQubit_writeQbit q (writeAll writeQbit qs ++ rest) h1
    simp only [List.length_cons, specQubits, writeAll, List.append_assoc, h3, h2]

theorem specDecode_serialize (src : QuantumFile)
    (hn : src.possible_contents.length ≤ 10000)
    (hc : ∀ c ∈ src.possible_contents, c.length ≤ 1000000)
    (hm : src.possible_metadata.length ≤ 10000)
    (hms : ∀ m ∈ src.possible_metadata, m.owner.length ≤ 1000 ∧ m.permissions.length ≤ 1000 ∧
      m.timestamp.length ≤ 1000 ∧ m.Fits)
    (hq : src.qbits.length ≤ 10000) (hqs : ∀ q ∈ src.qbits, q.Fits) :
    specDecode (serialize src)
      = Except.ok ⟨src.possible_contents, src.possible_metadata, src.qbits⟩ := by
  have h1 : ¬ src.possible_contents.length > 10000 := by omega
  have h2 : ¬ src.possible_metadata.length > 10000 := by omega
  have h3 : ¬ src.qbits.length > 10000 := by omega
  have h4 := specQubits_writeAll src.qbits [] hqs
  rw [List.append_nil] at h4
  have h5 := leValue_leBytes8 src.possible_contents.length (by omega)
  have h6 := leValue_leBytes8 src.possible_metadata.length (by omega)
  have h7 := leValue_leBytes8 src.qbits.length (by omega)
  unfold specDecode
  simp only [serialize, writeSizeT]
  rw [takeBytes_leBytes]
  dsimp only
  rw [h5]
  simp only [h1, if_false]
  rw [specBranches_writeAll _ _ hc]
  dsimp only
  rw [takeBytes_leBytes]
  dsimp only
  rw [h6]
  simp only [h2, if_false]
  rw [specMetas_writeAll _ _ hms]
  dsimp only
  rw [takeBytes_leBytes]
  dsimp only
  rw [h7]
  simp only [h3, if_false]
  rw [h4]

/-! ## How the loops can end, whatever the stream holds -/

theorem readContents_exit (junk : Uninit) (k : Nat) :
    ∀ (i : Nat) (cs : List Str) (ifs : IStream),
      (readContents junk k i cs ifs).2.2 = none ∨
      (readContents junk k i cs ifs).2.2 = some Exit.contentTooLong := by
  induction k with
  | zero => intro i cs ifs; exact Or.inl rfl
  | succ k ih =>
    intro i cs ifs
    unfold readContents
    by_cases h : (readSizeT ifs (junk Local.len i)).1 > 1000000
    · rw [if_pos h]
      exact Or.inr rfl
    · rw [if_neg h]
      exact ih _ _ _

theorem readMetadata_exit (junk : Uninit) (k : Nat) :
    ∀ (i : Nat) (ms : List FileMetadata) (ifs : IStream),
      (readMetadata junk k i ms ifs).2.2 = none ∨
      (readMetadata junk k i ms ifs).2.2 = some Exit.ownerTooLong ∨
      (readMetadata junk k i ms ifs).2.2 = some Exit.permTooLong ∨
      (readMetadata junk k i ms ifs).2.2 = some Exit.timeTooLong := by
  induction k with
  | zero => intro i ms ifs; exact Or.inl rfl
  | succ k ih =>
    intro i ms ifs
    unfold readMetadata
    dsimp only
    split_ifs
    · exact Or.inr (Or.inl rfl)
    · exact Or.inr (Or.inr (Or.inl rfl))
    · exact Or.inr (Or.inr (Or.inr rfl))
    · exact ih _ _ _

theorem readQbits_length (k : Nat) :
    ∀ (i : Nat) (qs : List Qbit) (ifs : IStream),
      (readQbits k i qs ifs).1.length = qs.length := by
  induction k with
  | zero => intro i qs ifs; rfl
  | succ k ih =>
    intro i qs ifs
    unfold readQbits
    dsimp only
    rw [ih, List.length_set]

/-- The parts of the store a call of `deserialize` can have touched, by the way
it ended. -/
theorem deserialize_frame (qf : QuantumFile) (junk : Uninit) (file : Option (List Byte)) :
    (deserialize qf junk file).1.name = qf.name ∧
    (deserialize qf junk file).1.observed_content = qf.observed_content ∧
    (deserialize qf junk file).1.observed_metadata = qf.observed_metadata ∧
    ((deserialize qf junk file).2 ≠ Exit.completed →
      (deserialize qf junk file).1.qbits = qf.qbits) ∧
    ((deserialize qf junk file).2 = Exit.contentTooLong ∨
      (deserialize qf junk file).2 = Exit.tooManyMetadata →
      (deserialize qf junk file).1.possible_metadata = qf.possible_metadata) ∧
    ((deserialize qf junk file).2 = Exit.openFailed ∨
      (deserialize qf junk file).2 = Exit.tooManyContents →
      (deserialize qf junk file).1 = qf) := by
  cases file with
  | none => simp [deserialize]
  | some bs =>
    unfold deserialize
    dsimp only
    by_cases hn : (readSizeT ⟨bs, false⟩ (junk Local.n 0)).1 > 10000
    · simp [hn]
    · simp only [hn, if_false]
      generalize hcs : readContents junk (readSizeT ⟨bs, false⟩ (junk Local.n 0)).1 0
        (resize [] qf.possible_contents (readSizeT ⟨bs, false⟩ (junk Local.n 0)).1)
        (readSizeT ⟨bs, false⟩ (junk Local.n 0)).2 = cs
      have hce := readContents_exit junk (readSizeT ⟨bs, false⟩ (junk Local.n 0)).1 0
        (resize [] qf.possible_contents (readSizeT ⟨bs, false⟩ (junk Local.n 0)).1)
        (readSizeT ⟨bs, false⟩ (junk Local.n 0)).2
      rw [hcs] at hce
      rcases hce with hce | hce
      · simp only [hce]
        by_cases hm : (readSizeT cs.2.1 (junk Local.m 0)).1 > 10000
        · simp [hm]
        · simp only [hm, if_false]
          generalize hms : readMetadata junk (readSizeT cs.2.1 (junk Local.m 0)).1 0
            (resize FileMetadata.init qf.possible_metadata (readSizeT cs.2.1 (junk Local.m 0)).1)
            (readSizeT cs.2.1 (junk Local.m 0)).2 = ms
          have hme := readMetadata_exit junk (readSizeT cs.2.1 (junk Local.m 0)).1 0
            (resize FileMetadata.init qf.possible_metadata (readSizeT cs.2.1 (junk Local.m 0)).1)
            (readSizeT cs.2.1 (junk Local.m 0)).2
          rw [hms] at hme
          rcases hme with hme | hme | hme | hme
          · simp only [hme]
            by_cases hq : (readSizeT ms.2.1 (junk Local.q 0)).1 > 10000
            · simp [hq]
            · simp [hq]
          · simp [hme]
          · simp [hme]
          · simp [hme]
      · simp [hce]

/-- What `deserialize` does on a stream in which the specified decoder meets an
oversized count or length. -/
theorem deserialize_of_specDecode_error (qf : QuantumFile) (junk : Uninit) (bs : List Byte)
    (err : DecodeError) (h : specDecode bs = Except.error err)
    (hT : err ≠ DecodeError.Truncated) :
    (err = DecodeError.OversizedCount ∧
      ((deserialize qf junk (some bs)).2 = Exit.tooManyContents ∨
       (deserialize qf junk (some bs)).2 = Exit.tooManyMetadata ∨
       (deserialize qf junk (some bs)).2 = Exit.tooManyQbits)) ∨
    (err = DecodeError.OversizedLength ∧
      (((deserialize qf junk (some bs)).2 = Exit.contentTooLong ∧
        ∃ fresh : List Str, fresh.length < leValue (bs.take 8) ∧
          (deserialize qf junk (some bs)).1.possible_contents
            = fresh ++ (resize [] qf.possible_contents (leValue (bs.take 8))).drop fresh.length) ∨
       (((deserialize qf junk (some bs)).2 = Exit.ownerTooLong ∨
         (deserialize qf junk (some bs)).2 = Exit.permTooLong ∨
         (deserialize qf junk (some bs)).2 = Exit.timeTooLong) ∧
        ∃ (m : Nat) (fresh : List FileMetadata) (e : FileMetadata), fresh.length < m ∧
          (deserialize qf junk (some bs)).1.possible_metadata
            = fresh ++ e :: (resize FileMetadata.init qf.possible_metadata m).drop
                (fresh.length + 1) ∧
          e.size = ((resize FileMetadata.init qf.possible_metadata m).getD fresh.length
            FileMetadata.init).size ∧
          e.timestamp = ((resize FileMetadata.init qf.possible_metadata m).getD fresh.length
            FileMetadata.init).timestamp ∧
          ((deserialize qf junk (some bs)).2 ≠ Exit.timeTooLong →
            e.permissions = ((resize FileMetadata.init qf.possible_metadata m).getD fresh.length
              FileMetadata.init).permissions) ∧
          ((deserialize qf junk (some bs)).2 = Exit.ownerTooLong →
            e = (resize FileMetadata.init qf.possible_metadata m).getD fresh.length
              FileMetadata.init)))) := by
  unfold specDecode at h
  by_cases h1 : 8 ≤ bs.length
  · simp only [takeBytes_some 8 _ h1] at h
    by_cases hn : leValue (bs.take 8) > 10000
    · simp only [hn, if_true, Except.error.injEq] at h
      subst h
      refine Or.inl ⟨rfl, Or.inl ?_⟩
      simp only [deserialize, readSizeT_ok bs _ h1, hn, if_true]
    · simp only [hn, if_false] at h
      cases hc : specBranches (leValue (bs.take 8)) (bs.drop 8) with
      | error e =>
        simp only [hc, Except.error.injEq] at h
        subst h
        have hlen : e = DecodeError.OversizedLength := by
          cases e with
          | OversizedCount => exact absurd hc (specBranches_not_count _ _)
          | OversizedLength => rfl
          | Truncated => exact absurd rfl hT
        subst hlen
        obtain ⟨e1, fresh, e2, e3⟩ := readContents_oversized junk _ _ hc []
          (resize [] qf.possible_contents (leValue (bs.take 8))) (resize_length _ _ _)
        simp only [List.length_nil, List.nil_append] at e1 e3
        refine Or.inr ⟨rfl, Or.inl ⟨?_, fresh, e2, ?_⟩⟩
        · simp only [deserialize, readSizeT_ok bs _ h1, hn, if_false, e1]
        · simp only [deserialize, readSizeT_ok bs _ h1, hn, if_false, e1, e3]
      | ok cs =>
        simp only [hc] at h
        have e1 := readContents_ok junk _ _ cs hc []
          (resize [] qf.possible_contents (leValue (bs.take 8))) (resize_length _ _ _)
        simp only [List.length_nil, List.nil_append] at e1
        by_cases h2 : 8 ≤ cs.2.length
        · simp only [takeBytes_some 8 _ h2] at h
          by_cases hm : leValue (cs.2.take 8) > 10000
          · simp only [hm, if_true, Except.error.injEq] at h
            subst h
            refine Or.inl ⟨rfl, Or.inr (Or.inl ?_)⟩
            simp only [deserialize, readSizeT_ok bs _ h1, hn, if_false, e1,
              readSizeT_ok cs.2 _ h2, hm, if_true]
          · simp only [hm, if_false] at h
            cases hms : specMetas (leValue (cs.2.take 8)) (cs.2.drop 8) with
            | error e =>
              simp only [hms, Except.error.injEq] at h
              subst h
              have hlen : e = DecodeError.OversizedLength := by
                cases e with
                | OversizedCount => exact absurd hms (specMetas_not_count _ _)
                | OversizedLength => rfl
                | Truncated => exact absurd rfl hT
              subst hlen
              obtain ⟨x, fresh, e, g1, g2, g3, g4, g5, g6, g7, g8⟩ :=
                readMetadata_oversized junk _ _ hms []
                  (resize FileMetadata.init qf.possible_metadata (leValue (cs.2.take 8)))
                  (resize_length _ _ _)
              simp only [List.length_nil, List.nil_append] at g1 g4
              have hexit : (deserialize qf junk (some bs)).2 = x := by
                simp only [deserialize, readSizeT_ok bs _ h1, hn, if_false, e1,
                  readSizeT_ok cs.2 _ h2, hm, g1]
              have hmeta : (deserialize qf junk (some bs)).1.possible_metadata
                  = fresh ++ e :: (resize FileMetadata.init qf.possible_metadata
                      (leValue (cs.2.take 8))).drop (fresh.length + 1) := by
                simp only [deserialize, readSizeT_ok bs _ h1, hn, if_false, e1,
                  readSizeT_ok cs.2 _ h2, hm, g1, g4]
              refine Or.inr ⟨rfl, Or.inr ⟨?_, leValue (cs.2.take 8), fresh, e, g3, hmeta, g5, g6,
                ?_, ?_⟩⟩
              · rw [hexit]; exact g2
              · rw [hexit]; exact g7
              · rw [hexit]; exact g8
            | ok ms =>
              simp only [hms] at h
              have e2 := readMetadata_ok junk _ _ ms hms []
                (resize FileMetadata.init qf.possible_metadata (leValue (cs.2.take 8)))
                (resize_length _ _ _)
              simp only [List.length_nil, List.nil_append] at e2
              by_cases h3 : 8 ≤ ms.2.length
              · simp only [takeBytes_some 8 _ h3] at h
                by_cases hq : leValue (ms.2.take 8) > 10000
                · simp only [hq, if_true, Except.error.injEq] at h
                  subst h
                  refine Or.inl ⟨rfl, Or.inr (Or.inr ?_)⟩
                  simp only [deserialize, readSizeT_ok bs _ h1, hn, if_false, e1,
                    readSizeT_ok cs.2 _ h2, hm, e2, readSizeT_ok ms.2 _ h3, hq, if_true]
                · simp only [hq, if_false] at h
                  cases hqs : specQubits (leValue (ms.2.take 8)) (ms.2.drop 8) with
                  | none =>
                    simp only [hqs, Except.error.injEq] at h
                    exact absurd h.symm hT
                  | some qs => simp only [hqs] at h; cases h
              · simp only [takeBytes_none 8 _ h3, Except.error.injEq] at h
                exact absurd h.symm hT
        · simp only [takeBytes_none 8 _ h2, Except.error.injEq] at h
          exact absurd h.symm hT
  · simp only [takeBytes_none 8 _ h1, Except.error.injEq] at h
    exact absurd h.symm hT

/-! ## A stream that ends inside the qubit records -/

theorem readSizeT_leBytes (n old : Nat) (rest : List Byte) (h : n < 18446744073709551616) :
    readSizeT ⟨leBytes 8 n ++ rest, false⟩ old = (n, ⟨rest, false⟩) := by
  have h8 : 8 ≤ (leBytes 8 n ++ rest).length := by
    rw [List.length_append, leBytes_length]; omega
  rw [readSizeT_ok _ old h8, List.take_left' (leBytes_length 8 n),
    List.drop_left' (leBytes_length 8 n), leValue_leBytes8 n h]

theorem deserialize_header (tgt : QuantumFile) (junk : Uninit) (cs : List Str)
    (ms : List FileMetadata) (q : Nat) (tail : List Byte)
    (hn : cs.length ≤ 10000) (hc : ∀ c ∈ cs, c.length ≤ 1000000)
    (hm : ms.length ≤ 10000)
    (hms : ∀ m ∈ ms, m.owner.length ≤ 1000 ∧ m.permissions.length ≤ 1000 ∧
      m.timestamp.length ≤ 1000 ∧ m.Fits)
    (hq : q ≤ 10000) :
    deserialize tgt junk (some (writeHeader cs ms q ++ tail))
      = ({ tgt with
            possible_contents := cs
            possible_metadata := ms
            qbits := (readQbits q 0 (resize Qbit.init tgt.qbits q) ⟨tail, false⟩).1 },
          Exit.completed) := by
  have h1 : ¬ cs.length > 10000 := by omega
  have h2 : ¬ ms.length > 10000 := by omega
  have h3 : ¬ q > 10000 := by omega
  have a1 := readSizeT_leBytes cs.length (junk Local.n 0)
    (writeAll writeStr cs ++ (leBytes 8 ms.length ++ (writeAll writeMeta ms ++
      (leBytes 8 q ++ tail)))) (by omega)
  have a2 := readContents_ok junk cs.length _ _
    (specBranches_writeAll cs (leBytes 8 ms.length ++ (writeAll writeMeta ms ++
      (leBytes 8 q ++ tail))) hc) [] (resize [] tgt.possible_contents cs.length)
    (resize_length _ _ _)
  have a3 := readSizeT_leBytes ms.length (junk Local.m 0)
    (writeAll writeMeta ms ++ (leBytes 8 q ++ tail)) (by omega)
  have a4 := readMetadata_ok junk ms.length _ _
    (specMetas_writeAll ms (leBytes 8 q ++ tail) hms) []
    (resize FileMetadata.init tgt.possible_metadata ms.length) (resize_length _ _ _)
  have a5 := readSizeT_leBytes q (junk Local.q 0) tail (by omega)
  simp only [List.length_nil, List.nil_append] at a2 a4
  simp only [deserialize, writeHeader, writeSizeT, List.append_assoc, a1, h1, if_false, a2, a3,
    h2, a4, a5, h3]

theorem specQubits_length (k : Nat) :
    ∀ (bs : List Byte) (r : List Qbit × List Byte), specQubits k bs = some r →
      21 * k ≤ bs.length := by
  induction k with
  | zero => intro bs r _; omega
  | succ k ih =>
    intro bs r h
    unfold specQubits at h
    cases hs : specQubit bs with
    | none => simp only [hs] at h; cases h
    | some s =>
      simp only [hs] at h
      cases hr : specQubits k s.2 with
      | none => simp only [hr] at h; cases h
      | some r2 =>
        obtain ⟨h21, rfl⟩ := specQubit_some_inv bs s hs
        have := ih _ r2 hr
        simp only [List.length_drop] at this
        omega

theorem specDecode_header_truncated (cs : List Str) (ms : List FileMetadata) (q : Nat)
    (tail : List Byte)
    (hn : cs.length ≤ 10000) (hc : ∀ c ∈ cs, c.length ≤ 1000000)
    (hm : ms.length ≤ 10000)
    (hms : ∀ m ∈ ms, m.owner.length ≤ 1000 ∧ m.permissions.length ≤ 1000 ∧
      m.timestamp.length ≤ 1000 ∧ m.Fits)
    (hq : q ≤ 10000) (hcut : tail.length < 21 * q) :
    specDecode (writeHeader cs ms q ++ tail) = Except.error DecodeError.Truncated := by
  have h1 : ¬ cs.length > 10000 := by omega
  have h2 : ¬ ms.length > 10000 := by omega
  have h3 : ¬ q > 10000 := by omega
  have h5 := leValue_leBytes8 cs.length (by omega)
  have h6 := leValue_leBytes8 ms.length (by omega)
  have h7 := leValue_leBytes8 q (by omega)
  have h4 : specQubits q tail = none := by
    cases hs : specQubits q tail with
    | none => rfl
    | some r =>
      have := specQubits_length q tail r hs
      omega
  unfold specDecode
  simp only [writeHeader, writeSizeT, List.append_assoc]
  rw [takeBytes_leBytes]
  dsimp only
  rw [h5]
  simp only [h1, if_false]
  rw [specBranches_writeAll _ _ hc]
  dsimp only
  rw [takeBytes_leBytes]
  dsimp only
  rw [h6]
  simp only [h2, if_false]
  rw [specMetas_writeAll _ _ hms]
  dsimp only
  rw [takeBytes_leBytes]
  dsimp only
  rw [h7]
  simp only [h3, if_false]
  rw [h4]

theorem readQbit_eof (e : Qbit) (he : e.Fits) (b : Bool) :
    readQbit e ⟨[], b⟩ = (e, ⟨[], true⟩) := by
  obtain ⟨ha, hb, hv1, hv2⟩ := he
  have h1 := leValue_leBytes8 e.alpha ha
  have h2 := leValue_leBytes8 e.beta hb
  have h3 : toInt32 (leValue (leBytes 4 (intBits e.value))) = e.value := by
    rw [leValue_leBytes]
    exact toInt32_intBits e.value hv1 hv2
  cases b <;>
    simp [readQbit, readSizeT, IStream.read, h1, h2, h3, firstByte, byteBool_boolByte]

theorem set_getD_self {α : Type} (xs : List α) (d : α) :
    ∀ i : Nat, xs.set i (xs.getD i d) = xs := by
  induction xs with
  | nil => intro i; rfl
  | cons x xs ih =>
    intro i
    cases i with
    | zero => rfl
    | succ i =>
      have := ih i
      simpa using this

theorem getD_fits (qs : List Qbit) (h : ∀ e ∈ qs, e.Fits) (i : Nat) :
    (qs.getD i Qbit.init).Fits := by
  by_cases hi : i < qs.length
  · rw [List.getD_eq_getElem _ _ hi]
    exact h _ (List.getElem_mem hi)
  · rw [List.getD_eq_default _ _ (by omega)]
    decide

theorem readQbits_eof (k : Nat) :
    ∀ (i : Nat) (qs : List Qbit) (b : Bool), (∀ e ∈ qs, e.Fits) →
      (readQbits k i qs ⟨[], b⟩).1 = qs := by
  induction k with
  | zero => intro i qs b _; rfl
  | succ k ih =>
    intro i qs b h
    unfold readQbits
    simp only [readQbit_eof _ (getD_fits qs h i) b, set_getD_self]
    exact ih _ _ _ h

theorem readQbits_add (a k : Nat) :
    ∀ (i : Nat) (qs : List Qbit) (ifs : IStream),
      readQbits (a + k) i qs ifs
        = readQbits k (i + a) (readQbits a i qs ifs).1 (readQbits a i qs ifs).2 := by
  induction a with
  | zero => intro i qs ifs; simp [readQbits]
  | succ a ih =>
    intro i qs ifs
    have h : a + 1 + k = (a + k) + 1 := by omega
    rw [h]
    simp only [readQbits]
    rw [ih]
    have h2 : i + 1 + a = i + (a + 1) := by omega
    rw [h2]

theorem writeAll_writeQbit_length (qs : List Qbit) :
    (writeAll writeQbit qs).length = 21 * qs.length := by
  induction qs with
  | nil => rfl
  | cons q qs ih =>
    simp only [writeAll, List.length_append, ih, writeQbit, leBytes_length, List.length_cons]
    omega

theorem resize_fits (qs : List Qbit) (h : ∀ e ∈ qs, e.Fits) (n : Nat) :
    ∀ e ∈ resize Qbit.init qs n, e.Fits := by
  intro e he
  simp only [resize, List.mem_append] at he
  rcases he with he | he
  · exact h e (List.mem_of_mem_take he)
  · rw [List.eq_of_mem_replicate he]
    decide

/-- The qbit loop on a stream that carries the complete records `done` and then
ends: those are decoded, the rest of the list is left as it was. -/
theorem readQbits_cut (done : List Qbit) (hd : ∀ e ∈ done, e.Fits) (qs : List Qbit)
    (hq : ∀ e ∈ qs, e.Fits) (k : Nat) (hlen : qs.length = done.length + k) :
    (readQbits (done.length + k) 0 qs ⟨writeAll writeQbit done, false⟩).1
      = done ++ qs.drop done.length := by
  have hs := specQubits_writeAll done [] hd
  rw [List.append_nil] at hs
  have h1 := readQbits_ok done.length _ _ hs [] (qs.take done.length) (qs.drop done.length)
    (by rw [List.length_take]; omega)
  simp only [List.length_nil, List.nil_append, List.take_append_drop] at h1
  rw [readQbits_add, h1]
  apply readQbits_eof
  intro e he
  rcases List.mem_append.mp he with he | he
  · exact hd e he
  · exact hq e (List.mem_of_mem_drop he)

/-! ## A stream that ends inside a qubit record -/

theorem read_length (ifs : IStream) (k : Nat) (mem : List Byte) (hm : mem.length = k) :
    (ifs.read k mem).1.length = k := by
  unfold IStream.read
  by_cases hf : ifs.fail = true
  · simp [hf, hm]
  · by_cases hk : k ≤ ifs.rest.length
    · simp only [hf, hk, if_true, Bool.false_eq_true, if_false, List.length_append,
        List.length_take, List.length_drop]
      omega
    · simp only [hf, hk, Bool.false_eq_true, if_false, List.length_append, List.length_drop]
      omega

theorem readQbit_fits (e : Qbit) (ifs : IStream) : (readQbit e ifs).1.Fits := by
  have h1 := leValue_lt (ifs.read 8 (leBytes 8 e.alpha)).1
  rw [read_length _ _ _ (leBytes_length 8 _)] at h1
  have h2 := leValue_lt ((readSizeT ifs e.alpha).2.read 8 (leBytes 8 e.beta)).1
  rw [read_length _ _ _ (leBytes_length 8 _)] at h2
  have h3 := leValue_lt
    (((readSizeT (readSizeT ifs e.alpha).2 e.beta).2.read 1 [boolByte e.measured]).2.read 4
      (leBytes 4 (intBits e.value))).1
  rw [read_length _ _ _ (leBytes_length 4 _)] at h3
  norm_num at h1 h2 h3
  unfold Qbit.Fits readQbit
  dsimp only
  refine ⟨h1, h2, ?_, ?_⟩
  · unfold toInt32
    split_ifs <;> omega
  · unfold toInt32
    split_ifs <;> omega

theorem read_state_failed (rest mem : List Byte) (k : Nat) :
    (IStream.read ⟨rest, true⟩ k mem).2 = ⟨rest, true⟩ := by
  simp [IStream.read]

theorem read_state_short (rest mem : List Byte) (k : Nat) (h : ¬ k ≤ rest.length) :
    (IStream.read ⟨rest, false⟩ k mem).2 = ⟨[], true⟩ := by
  simp [IStream.read, h]

theorem read_state_ok (rest mem : List Byte) (k : Nat) (h : k ≤ rest.length) :
    (IStream.read ⟨rest, false⟩ k mem).2 = ⟨rest.drop k, false⟩ := by
  simp [IStream.read, h]

/-- A stream that holds less than one record is exhausted and failed after one
iteration of the qbit loop. -/
theorem readQbit_short (e : Qbit) (frag : List Byte) (h : frag.length < 21) :
    (readQbit e ⟨frag, false⟩).2 = ⟨[], true⟩ := by
  unfold readQbit readSizeT
  dsimp only
  by_cases h1 : 8 ≤ frag.length
  · rw [read_state_ok _ _ _ h1]
    by_cases h2 : 8 ≤ (frag.drop 8).length
    · rw [read_state_ok _ _ _ h2]
      by_cases h3 : 1 ≤ ((frag.drop 8).drop 8).length
      · rw [read_state_ok _ _ _ h3]
        have h4 : ¬ 4 ≤ (((frag.drop 8).drop 8).drop 1).length := by
          simp only [List.length_drop]
          omega
        rw [read_state_short _ _ _ h4]
      · rw [read_state_short _ _ _ h3, read_state_failed]
    · rw [read_state_short _ _ _ h2, read_state_failed, read_state_failed]
  · rw [read_state_short _ _ _ h1, read_state_failed, read_state_failed, read_state_failed]

theorem specQubit_fits (bs : List Byte) (q : Qbit × List Byte) (h : specQubit bs = some q) :
    q.1.Fits := by
  have := readQbit_fits Qbit.init ⟨bs, false⟩
  rw [readQbit_ok bs q h] at this
  exact this

theorem specQubits_fits (k : Nat) :
    ∀ (bs : List Byte) (r : List Qbit × List Byte), specQubits k bs = some r →
      (∀ e ∈ r.1, e.Fits) ∧ r.1.length = k := by
  induction k with
  | zero =>
    intro bs r h
    simp only [specQubits, Option.some.injEq] at h
    subst h
    simp
  | succ k ih =>
    intro bs r h
    unfold specQubits at h
    cases hs : specQubit bs with
    | none => simp only [hs] at h; cases h
    | some s =>
      simp only [hs] at h
      cases hr : specQubits k s.2 with
      | none => simp only [hr] at h; cases h
      | some r2 =>
        simp only [hr, Option.some.injEq] at h
        subst h
        obtain ⟨f1, f2⟩ := ih s.2 r2 hr
        refine ⟨?_, by simp [f2]⟩
        intro e he
        rcases List.mem_cons.mp he with he | he
        · rw [he]
          exact specQubit_fits bs s hs
        · exact f1 e he

theorem specQubit_of_length (bs : List Byte) (h : 21 ≤ bs.length) :
    ∃ q : Qbit, specQubit bs = some (q, bs.drop 21) := by
  have h1 : 8 ≤ bs.length := by omega
  have h2 : 8 ≤ (bs.drop 8).length := by simp only [List.length_drop]; omega
  have h3 : 1 ≤ ((bs.drop 8).drop 8).length := by simp only [List.length_drop]; omega
  have h4 : 4 ≤ (((bs.drop 8).drop 8).drop 1).length := by simp only [List.length_drop]; omega
  unfold specQubit
  simp only [takeBytes_some 8 _ h1, takeBytes_some 8 _ h2, takeBytes_some 1 _ h3,
    takeBytes_some 4 _ h4]
  refine ⟨⟨leValue (bs.take 8), leValue ((bs.drop 8).take 8),
    byteBool (firstByte (((bs.drop 8).drop 8).take 1)),
    toInt32 (leValue ((((bs.drop 8).drop 8).drop 1).take 4))⟩, ?_⟩
  simp only [List.drop_drop]

theorem specQubits_of_length (k : Nat) :
    ∀ bs : List Byte, 21 * k ≤ bs.length →
      ∃ done : List Qbit, specQubits k bs = some (done, bs.drop (21 * k)) := by
  induction k with
  | zero => intro bs _; exact ⟨[], by simp [specQubits]⟩
  | succ k ih =>
    intro bs h
    obtain ⟨q, hq⟩ := specQubit_of_length bs (by omega)
    obtain ⟨done, hd⟩ := ih (bs.drop 21) (by simp only [List.length_drop]; omega)
    refine ⟨q :: done, ?_⟩
    unfold specQubits
    simp only [hq, hd, List.drop_drop]
    have : 21 + 21 * k = 21 * (k + 1) := by omega
    rw [this]

/-- The qbit loop on a stream that carries `pre.length` complete records and then
less than one record: the complete records are decoded, the qubit at the cut is
what one iteration on the remaining bytes makes of it, and the later qubits are
left as they were. -/
theorem readQbits_cut_inside (done pre : List Qbit) (x : Qbit) (rest : List Qbit)
    (tail frag : List Byte) (hspec : specQubits pre.length tail = some (done, frag))
    (hfrag : frag.length < 21) (hrest : ∀ e ∈ rest, e.Fits) :
    (readQbits (pre.length + (rest.length + 1)) 0 (pre ++ x :: rest) ⟨tail, false⟩).1
      = done ++ (readQbit x ⟨frag, false⟩).1 :: rest := by
  obtain ⟨hdf, hdl⟩ := specQubits_fits _ _ _ hspec
  have h1 := readQbits_ok pre.length _ _ hspec [] pre (x :: rest) rfl
  simp only [List.length_nil, List.nil_append] at h1
  rw [readQbits_add, h1]
  dsimp only
  rw [Nat.zero_add, ← hdl]
  unfold readQbits
  simp only [getD_append_cons, set_append_cons, readQbit_short x frag hfrag]
  rw [readQbits_eof]
  · simp
  · intro e he
    simp only [List.append_assoc, List.mem_append, List.mem_cons, List.mem_singleton,
      List.not_mem_nil, or_false] at he
    rcases he with he | he | he
    · exact hdf e he
    · rw [he]
      exact readQbit_fits x _
    · exact hrest e he

/-- The qbit loop over a list of `q` qubits on a stream shorter than `q` records,
wherever it ends. -/
theorem readQbits_cut_at (L : List Qbit) (hL : ∀ e ∈ L, e.Fits) (tail : List Byte) (q : Nat)
    (hq : L.length = q) (hcut : tail.length < 21 * q) :
    ∃ (done : List Qbit) (frag : List Byte),
      specQubits (tail.length / 21) tail = some (done, frag) ∧
      frag.length = tail.length % 21 ∧
      (readQbits q 0 L ⟨tail, false⟩).1.take (tail.length / 21) = done ∧
      (readQbits q 0 L ⟨tail, false⟩).1[tail.length / 21]?
        = some (readQbit (L.getD (tail.length / 21) Qbit.init) ⟨frag, false⟩).1 ∧
      (readQbits q 0 L ⟨tail, false⟩).1.drop (tail.length / 21 + 1)
        = L.drop (tail.length / 21 + 1) ∧
      (tail.length % 21 = 0 →
        (readQbits q 0 L ⟨tail, false⟩).1.drop (tail.length / 21) = L.drop (tail.length / 21)) := by
  generalize hj : tail.length / 21 = j
  have hjq : j < q := by omega
  have hjL : j < L.length := by omega
  obtain ⟨done, hd⟩ := specQubits_of_length j tail (by omega)
  have hfl : (tail.drop (21 * j)).length = tail.length % 21 := by
    rw [List.length_drop]
    omega
  have hfrag : (tail.drop (21 * j)).length < 21 := by omega
  have e1 : (L.take j).length = j := by rw [List.length_take]; omega
  have e2 : (L.take j).length + ((L.drop (j + 1)).length + 1) = q := by
    rw [e1, List.length_drop]
    omega
  have hdec : L.take j ++ L[j] :: L.drop (j + 1) = L := by
    rw [← List.drop_eq_getElem_cons hjL, List.take_append_drop]
  have hspec : specQubits (L.take j).length tail = some (done, tail.drop (21 * j)) := by
    rw [e1]
    exact hd
  have key := readQbits_cut_inside done (L.take j) L[j] (L.drop (j + 1)) tail (tail.drop (21 * j))
    hspec hfrag (fun e he => hL e (List.mem_of_mem_drop he))
  rw [e2, hdec] at key
  have hdl : done.length = j := (specQubits_fits _ _ _ hd).2
  have hget : L.getD j Qbit.init = L[j] := List.getD_eq_getElem _ _ hjL
  refine ⟨done, tail.drop (21 * j), hd, hfl, ?_, ?_, ?_, ?_⟩
  · rw [key, List.take_left' hdl]
  · rw [key, hget, List.getElem?_append_right (by omega), hdl]
    simp
  · rw [key]
    have : done ++ (readQbit L[j] ⟨tail.drop (21 * j), false⟩).1 :: L.drop (j + 1)
        = (done ++ [(readQbit L[j] ⟨tail.drop (21 * j), false⟩).1]) ++ L.drop (j + 1) := by
      simp
    rw [this, List.drop_left' (by simp [hdl])]
  · intro h0
    have hnil : tail.drop (21 * j) = [] := List.length_eq_zero.mp (by omega)
    rw [key, hnil, readQbit_eof L[j] (hL _ (List.getElem_mem hjL)) false,
      List.drop_left' hdl, List.drop_eq_getElem_cons hjL]

/-! ## The codec: round trip, rejected streams, frame -/

/-- C1. Round trip: for every store within the decoder's bounds (at most 10000
branches of at most 1000000 bytes, at most 10000 metadata records with owner,
permissions and timestamp of at most 1000 bytes, at most 10000 qubits; integer
fields fitting their machine types), `deserialize` run on the bytes `serialize`
wrote completes and leaves branches, metadata records and qubits equal to the
original ones, whatever the target store held before. -/
theorem deserialize_serialize_roundtrip (src tgt : QuantumFile) (junk : Uninit)
    (hn : src.possible_contents.length ≤ 10000)
    (hc : ∀ c ∈ src.possible_contents, c.length ≤ 1000000)
    (hm : src.possible_metadata.length ≤ 10000)
    (hms : ∀ m ∈ src.possible_metadata, m.owner.length ≤ 1000 ∧ m.permissions.length ≤ 1000 ∧
      m.timestamp.length ≤ 1000 ∧ m.Fits)
    (hq : src.qbits.length ≤ 10000) (hqs : ∀ q ∈ src.qbits, q.Fits) :
    (deserialize tgt junk (some (serialize src))).2 = Exit.completed ∧
    (deserialize tgt junk (some (serialize src))).1.possible_contents = src.possible_contents ∧
    (deserialize tgt junk (some (serialize src))).1.possible_metadata = src.possible_metadata ∧
    (deserialize tgt junk (some (serialize src))).1.qbits = src.qbits := by
  rw [deserialize_of_specDecode_ok tgt junk (serialize src) _
    (specDecode_serialize src hn hc hm hms hq hqs)]
  exact ⟨rfl, rfl, rfl, rfl⟩

theorem deserialize_serialize_roundtrip_witness :
    (deserialize threeBranches zeroJunk (some (serialize sampleFile))).2 = Exit.completed ∧
    (deserialize threeBranches zeroJunk (some (serialize sampleFile))).1.possible_contents
      = sampleFile.possible_contents ∧
    (deserialize threeBranches zeroJunk (some (serialize sampleFile))).1.possible_metadata
      = sampleFile.possible_metadata ∧
    (deserialize threeBranches zeroJunk (some (serialize sampleFile))).1.qbits
      = sampleFile.qbits :=
  deserialize_serialize_roundtrip sampleFile threeBranches zeroJunk (by decide) (by decide)
    (by decide) (by decide) (by decide) (by decide)

/-- C2 (as stated, refuted). A decode that is rejected at a branch length has
already resized the branch list: with three branches in the target and a stream
declaring one branch of length 2000000, the call returns at the length check and
the target is left with one branch. -/
theorem deserialize_failure_modifies_target :
    (deserialize threeBranches zeroJunk (some longBranchStream)).2 = Exit.contentTooLong ∧
    (deserialize threeBranches zeroJunk (some longBranchStream)).1.possible_contents
      = [[1, 2, 3]] ∧
    (deserialize threeBranches zeroJunk (some longBranchStream)).1 ≠ threeBranches := by
  decide

/-- C2 (amended). A call of `deserialize` that does not complete leaves the qubits
of the target as they were (and always its name and observed fields); when it
returns at a branch length or at the metadata count it leaves the metadata as it
was too; when it cannot open the file or returns at the branch count it leaves the
whole store as it was. -/
theorem deserialize_failure_frame (qf : QuantumFile) (junk : Uninit) (file : Option (List Byte))
    (h : (deserialize qf junk file).2 ≠ Exit.completed) :
    (deserialize qf junk file).1.qbits = qf.qbits ∧
    (deserialize qf junk file).1.name = qf.name ∧
    (deserialize qf junk file).1.observed_content = qf.observed_content ∧
    (deserialize qf junk file).1.observed_metadata = qf.observed_metadata ∧
    ((deserialize qf junk file).2 = Exit.contentTooLong ∨
      (deserialize qf junk file).2 = Exit.tooManyMetadata →
      (deserialize qf junk file).1.possible_metadata = qf.possible_metadata) ∧
    ((deserialize qf junk file).2 = Exit.openFailed ∨
      (deserialize qf junk file).2 = Exit.tooManyContents →
      (deserialize qf junk file).1 = qf) := by
  obtain ⟨a, b, c, d, e, f⟩ := deserialize_frame qf junk file
  exact ⟨d h, a, b, c, e, f⟩

theorem deserialize_failure_frame_witness :
    (deserialize threeBranches zeroJunk (some longBranchStream)).2 ≠ Exit.completed ∧
    (deserialize threeBranches zeroJunk (some longBranchStream)).1.qbits = threeBranches.qbits :=
  ⟨by decide, (deserialize_failure_frame threeBranches zeroJunk (some longBranchStream)
    (by decide)).1⟩

/-- C3. A stream whose leading `u64` branch count exceeds 10000 is rejected at the
first check and the target store is returned exactly as it was. -/
theorem deserialize_rejects_oversized_branch_count (qf : QuantumFile) (junk : Uninit)
    (bs : List Byte) (h8 : 8 ≤ bs.length) (hn : leValue (bs.take 8) > 10000) :
    deserialize qf junk (some bs) = (qf, Exit.tooManyContents) := by
  simp only [deserialize, readSizeT_ok bs _ h8, hn, if_true]

theorem deserialize_rejects_oversized_branch_count_witness :
    leValue ((writeSizeT 20000 ++ [7, 7, 7]).take 8) = 20000 ∧
    deserialize sampleFile zeroJunk (some (writeSizeT 20000 ++ [7, 7, 7]))
      = (sampleFile, Exit.tooManyContents) :=
  ⟨by decide, deserialize_rejects_oversized_branch_count sampleFile zeroJunk
    (writeSizeT 20000 ++ [7, 7, 7]) (by decide) (by decide)⟩

/-- C4. On a stream that is complete with respect to the lengths it declares (the
specified decoder does not find it truncated), `deserialize` returns early exactly
when the specified decoder, reading in wire order with the bounds 10000 / 1000000
/ 1000 (values equal to a bound accepted), meets an oversized count or length, and
with the matching kind. Each check comes before the container or string it guards
is touched: after a rejected count the container it announces is as before, after
a rejected branch length the branch at that index and the later ones are as the
resize left them, and after a rejected metadata string length the fields of that
record from the rejected one on, and the later records, are as the resize left
them. -/
theorem deserialize_rejects_exactly_oversized (qf : QuantumFile) (junk : Uninit)
    (bs : List Byte) (hcomplete : specDecode bs ≠ Except.error DecodeError.Truncated) :
    ((deserialize qf junk (some bs)).2 ≠ Exit.completed ↔
      (specDecode bs = Except.error DecodeError.OversizedCount ∨
       specDecode bs = Except.error DecodeError.OversizedLength)) ∧
    (((deserialize qf junk (some bs)).2 = Exit.tooManyContents ∨
      (deserialize qf junk (some bs)).2 = Exit.tooManyMetadata ∨
      (deserialize qf junk (some bs)).2 = Exit.tooManyQbits) ↔
      specDecode bs = Except.error DecodeError.OversizedCount) ∧
    (((deserialize qf junk (some bs)).2 = Exit.contentTooLong ∨
      (deserialize qf junk (some bs)).2 = Exit.ownerTooLong ∨
      (deserialize qf junk (some bs)).2 = Exit.permTooLong ∨
      (deserialize qf junk (some bs)).2 = Exit.timeTooLong) ↔
      specDecode bs = Except.error DecodeError.OversizedLength) ∧
    ((deserialize qf junk (some bs)).2 = Exit.tooManyContents →
      (deserialize qf junk (some bs)).1 = qf) ∧
    ((deserialize qf junk (some bs)).2 = Exit.tooManyMetadata →
      (deserialize qf junk (some bs)).1.possible_metadata = qf.possible_metadata) ∧
    ((deserialize qf junk (some bs)).2 = Exit.tooManyQbits →
      (deserialize qf junk (some bs)).1.qbits = qf.qbits) ∧
    ((deserialize qf junk (some bs)).2 = Exit.contentTooLong →
      ∃ fresh : List Str, fresh.length < leValue (bs.take 8) ∧
        (deserialize qf junk (some bs)).1.possible_contents
          = fresh ++ (resize [] qf.possible_contents (leValue (bs.take 8))).drop fresh.length) ∧
    (((deserialize qf junk (some bs)).2 = Exit.ownerTooLong ∨
      (deserialize qf junk (some bs)).2 = Exit.permTooLong ∨
      (deserialize qf junk (some bs)).2 = Exit.timeTooLong) →
      ∃ (m : Nat) (fresh : List FileMetadata) (e : FileMetadata), fresh.length < m ∧
        (deserialize qf junk (some bs)).1.possible_metadata
          = fresh ++ e :: (resize FileMetadata.init qf.possible_metadata m).drop
              (fresh.length + 1) ∧
        e.size = ((resize FileMetadata.init qf.possible_metadata m).getD fresh.length
          FileMetadata.init).size ∧
        e.timestamp = ((resize FileMetadata.init qf.possible_metadata m).getD fresh.length
          FileMetadata.init).timestamp ∧
        ((deserialize qf junk (some bs)).2 ≠ Exit.timeTooLong →
          e.permissions = ((resize FileMetadata.init qf.possible_metadata m).getD fresh.length
            FileMetadata.init).permissions) ∧
        ((deserialize qf junk (some bs)).2 = Exit.ownerTooLong →
          e = (resize FileMetadata.init qf.possible_metadata m).getD fresh.length
            FileMetadata.init)) := by
  obtain ⟨_, _, _, f4, f5, f6⟩ := deserialize_frame qf junk (some bs)
  have g4 : (deserialize qf junk (some bs)).2 = Exit.tooManyContents →
      (deserialize qf junk (some bs)).1 = qf := fun hx => f6 (Or.inr hx)
  have g5 : (deserialize qf junk (some bs)).2 = Exit.tooManyMetadata →
      (deserialize qf junk (some bs)).1.possible_metadata = qf.possible_metadata :=
    fun hx => f5 (Or.inr hx)
  have g6 : (deserialize qf junk (some bs)).2 = Exit.tooManyQbits →
      (deserialize qf junk (some bs)).1.qbits = qf.qbits :=
    fun hx => f4 (by rw [hx]; decide)
  cases hs : specDecode bs with
  | ok d =>
    have hx : (deserialize qf junk (some bs)).2 = Exit.completed := by
      rw [deserialize_of_specDecode_ok qf junk bs d hs]
    refine ⟨?_, ?_, ?_, g4, g5, g6, ?_, ?_⟩ <;> simp [hx]
  | error err =>
    have hT : err ≠ DecodeError.Truncated := by
      intro he
      rw [he] at hs
      exact hcomplete hs
    rcases deserialize_of_specDecode_error qf junk bs err hs hT with
      ⟨rfl, hx⟩ | ⟨rfl, ⟨hx, hfresh⟩ | ⟨hx, hfresh⟩⟩
    · refine ⟨?_, ?_, ?_, g4, g5, g6, ?_, ?_⟩
      · rcases hx with hx | hx | hx <;> simp [hx]
      · simp [hx]
      · rcases hx with hx | hx | hx <;> simp [hx]
      · rcases hx with hx | hx | hx <;> simp [hx]
      · rcases hx with hx | hx | hx <;> simp [hx]
    · refine ⟨?_, ?_, ?_, g4, g5, g6, fun _ => hfresh, ?_⟩ <;> simp [hx]
    · refine ⟨?_, ?_, ?_, g4, g5, g6, ?_, fun _ => hfresh⟩
      · rcases hx with hx | hx | hx <;> simp [hx]
      · rcases hx with hx | hx | hx <;> simp [hx]
      · simp [hx]
      · rcases hx with hx | hx | hx <;> simp [hx]

theorem deserialize_rejects_exactly_oversized_witness :
    specDecode (writeSizeT 0 ++ writeSizeT 10001) = Except.error DecodeError.OversizedCount ∧
    (deserialize sampleFile zeroJunk (some (writeSizeT 0 ++ writeSizeT 10001))).2
      ≠ Exit.completed :=
  ⟨by decide, (deserialize_rejects_exactly_oversized sampleFile zeroJunk
    (writeSizeT 0 ++ writeSizeT 10001) (by decide)).1.mpr (Or.inl (by decide))⟩

/-- C5 (as stated, refuted). A stream that declares two qubits and carries one
record, which the specified decoder finds truncated, makes `deserialize` complete:
the second qubit is the value-initialised one. -/
theorem deserialize_completes_on_truncated_stream :
    specDecode oneOfTwoQubits = Except.error DecodeError.Truncated ∧
    (deserialize threeBranches zeroJunk (some oneOfTwoQubits)).2 = Exit.completed ∧
    (deserialize threeBranches zeroJunk (some oneOfTwoQubits)).1.qbits
      = [⟨4607182418800017408, 0, true, 0⟩, Qbit.init] := by
  decide

/-- C5 (amended). A stream with in-bound branches and metadata and an in-bound
qubit count `q` that ends before `q` qubit records are complete (truncated for the
specified decoder) makes `deserialize` complete without reporting anything: the
store holds the decoded branches and metadata and exactly `q` qubits. Wherever
the stream ends, the records fully present are decoded into the first qubits, and
the qubits after the one at which the stream ends are those of the resized list
(the target's earlier qubits, or value-initialised ones). The qubit at which the
stream ends is what one pass of the loop body makes of it from the bytes that
remain, so it may be partly overwritten; when the stream ends on a record
boundary it is left as the resized list held it too. -/
theorem deserialize_completes_on_cut_qubit_records (tgt : QuantumFile) (junk : Uninit)
    (cs : List Str) (ms : List FileMetadata) (q : Nat) (tail : List Byte)
    (hn : cs.length ≤ 10000) (hc : ∀ c ∈ cs, c.length ≤ 1000000)
    (hm : ms.length ≤ 10000)
    (hms : ∀ m ∈ ms, m.owner.length ≤ 1000 ∧ m.permissions.length ≤ 1000 ∧
      m.timestamp.length ≤ 1000 ∧ m.Fits)
    (hq : q ≤ 10000) (hcut : tail.length < 21 * q) :
    specDecode (writeHeader cs ms q ++ tail) = Except.error DecodeError.Truncated ∧
    (deserialize tgt junk (some (writeHeader cs ms q ++ tail))).2 = Exit.completed ∧
    (deserialize tgt junk (some (writeHeader cs ms q ++ tail))).1.possible_contents = cs ∧
    (deserialize tgt junk (some (writeHeader cs ms q ++ tail))).1.possible_metadata = ms ∧
    (deserialize tgt junk (some (writeHeader cs ms q ++ tail))).1.qbits.length = q ∧
    (∀ done : List Qbit, tail = writeAll writeQbit done → (∀ e ∈ done, e.Fits) →
      (∀ e ∈ tgt.qbits, e.Fits) →
      (deserialize tgt junk (some (writeHeader cs ms q ++ tail))).1.qbits
        = done ++ (resize Qbit.init tgt.qbits q).drop done.length) ∧
    ((∀ e ∈ tgt.qbits, e.Fits) →
      ∃ (done : List Qbit) (frag : List Byte),
        specQubits (tail.length / 21) tail = some (done, frag) ∧
        frag.length = tail.length % 21 ∧
        (deserialize tgt junk (some (writeHeader cs ms q ++ tail))).1.qbits.take
            (tail.length / 21) = done ∧
        (deserialize tgt junk (some (writeHeader cs ms q ++ tail))).1.qbits[tail.length / 21]?
          = some (readQbit ((resize Qbit.init tgt.qbits q).getD (tail.length / 21) Qbit.init)
              ⟨frag, false⟩).1 ∧
        (deserialize tgt junk (some (writeHeader cs ms q ++ tail))).1.qbits.drop
            (tail.length / 21 + 1)
          = (resize Qbit.init tgt.qbits q).drop (tail.length / 21 + 1) ∧
        (tail.length % 21 = 0 →
          (deserialize tgt junk (some (writeHeader cs ms q ++ tail))).1.qbits.drop
              (tail.length / 21)
            = (resize Qbit.init tgt.qbits q).drop (tail.length / 21))) := by
  rw [deserialize_header tgt junk cs ms q tail hn hc hm hms hq]
  refine ⟨specDecode_header_truncated cs ms q tail hn hc hm hms hq hcut, rfl, rfl, rfl, ?_, ?_, ?_⟩
  · dsimp only
    rw [readQbits_length, resize_length]
  · intro done htail hd ht
    dsimp only
    subst htail
    rw [writeAll_writeQbit_length] at hcut
    have hk : q = done.length + (q - done.length) := by omega
    have hlen : (resize Qbit.init tgt.qbits q).length = done.length + (q - done.length) := by
      rw [resize_length]; exact hk
    have := readQbits_cut done hd (resize Qbit.init tgt.qbits q) (resize_fits _ ht q)
      (q - done.length) hlen
    rw [← hk] at this
    exact this
  · intro ht
    dsimp only
    exact readQbits_cut_at (resize Qbit.init tgt.qbits q) (resize_fits _ ht q) tail q
      (resize_length _ _ _) hcut

/-- A stream that declares two qubits and ends three bytes into the `beta` of the
first: `alpha` is decoded, the first three bytes of `beta` are overwritten, and
`measured`, `value` and the second qubit are left as the target had them. -/
theorem deserialize_cut_inside_record :
    (deserialize { threeBranches with qbits := [⟨float1, float1, true, 1⟩, ⟨0, float1, true, 1⟩] }
        zeroJunk
        (some (writeHeader [] [] 2 ++ (leBytes 8 float2 ++ [170, 187, 204])))).2
      = Exit.completed ∧
    (deserialize { threeBranches with qbits := [⟨float1, float1, true, 1⟩, ⟨0, float1, true, 1⟩] }
        zeroJunk
        (some (writeHeader [] [] 2 ++ (leBytes 8 float2 ++ [170, 187, 204])))).1.qbits
      = [⟨float2, 4607182418813434794, true, 1⟩, ⟨0, float1, true, 1⟩] := by
  decide

theorem deserialize_completes_on_cut_qubit_records_witness :
    (deserialize threeBranches zeroJunk (some oneOfTwoQubits)).2 = Exit.completed ∧
    (deserialize threeBranches zeroJunk (some oneOfTwoQubits)).1.qbits.length = 2 :=
  ⟨(deserialize_completes_on_cut_qubit_records threeBranches zeroJunk [] [] 2
      (writeQbit ⟨4607182418800017408, 0, true, 0⟩) (by decide) (by decide) (by decide)
      (by decide) (by decide) (by decide)).2.1,
   (deserialize_completes_on_cut_qubit_records threeBranches zeroJunk [] [] 2
      (writeQbit ⟨4607182418800017408, 0, true, 0⟩) (by decide) (by decide) (by decide)
      (by decide) (by decide) (by decide)).2.2.2.2.1⟩

/-! ## The entanglement monitor -/

theorem foldl_decimalDigits (fuel : Nat) :
    ∀ (n : Nat) (acc : Str), n < fuel →
      (decimalDigits fuel n acc).foldl (fun a b => 10 * a + (b.val - 48)) 0
        = acc.foldl (fun a b => 10 * a + (b.val - 48)) n := by
  induction fuel with
  | zero => intro n acc h; omega
  | succ fuel ih =>
    intro n acc h
    have hd : (byteOf (48 + n % 10)).val - 48 = n % 10 := by
      simp only [byteOf]
      omega
    unfold decimalDigits
    by_cases h0 : n / 10 = 0
    · rw [if_pos h0]
      simp only [List.foldl_cons, hd]
      have : 10 * 0 + n % 10 = n := by omega
      rw [this]
    · rw [if_neg h0, ih (n / 10) _ (by omega)]
      simp only [List.foldl_cons, hd]
      have : 10 * (n / 10) + n % 10 = n := by omega
      rw [this]

theorem parseDec_to_string (n : Nat) : parseDec (to_string n) = n := by
  unfold parseDec to_string
  rw [foldl_decimalDigits (n + 1) n [] (by omega)]
  rfl

theorem to_string_inj {a b : Nat} (h : to_string a = to_string b) : a = b := by
  rw [← parseDec_to_string a, ← parseDec_to_string b, h]

theorem xorFold_acc (hasher : Str → Nat) (cs : List Str) :
    ∀ h : Nat, xorFold hasher cs h = h ^^^ xorFold hasher cs 0 := by
  induction cs with
  | nil => intro h; simp [xorFold]
  | cons c cs ih =>
    intro h
    simp only [xorFold]
    rw [ih (h ^^^ hasher c), ih (0 ^^^ hasher c), Nat.zero_xor, Nat.xor_assoc]

theorem xorFold_cons (hasher : Str → Nat) (c : Str) (cs : List Str) :
    xorFold hasher (c :: cs) 0 = hasher c ^^^ xorFold hasher cs 0 := by
  simp only [xorFold]
  rw [xorFold_acc, Nat.zero_xor]

theorem xorFold_append_single (hasher : Str → Nat) (cs : List Str) (c : Str) :
    xorFold hasher (cs ++ [c]) 0 = xorFold hasher cs 0 ^^^ hasher c := by
  induction cs with
  | nil => simp [xorFold]
  | cons d cs ih => rw [List.cons_append, xorFold_cons, xorFold_cons, ih, Nat.xor_assoc]

theorem xorFold_perm (hasher : Str → Nat) {xs ys : List Str} (h : xs.Perm ys) :
    xorFold hasher xs 0 = xorFold hasher ys 0 := by
  induction h with
  | nil => rfl
  | cons c _ ih => rw [xorFold_cons, xorFold_cons, ih]
  | swap c d l =>
    rw [xorFold_cons, xorFold_cons, xorFold_cons, xorFold_cons, ← Nat.xor_assoc, ← Nat.xor_assoc,
      Nat.xor_comm (hasher d) (hasher c)]
  | trans _ _ ih1 ih2 => exact ih1.trans ih2

theorem xor_eq_self_iff (x h : Nat) : x ^^^ h = x ↔ h = 0 := by
  constructor
  · intro e
    have : x ^^^ h = x ^^^ 0 := by rw [e, Nat.xor_zero]
    exact Nat.xor_right_injective this
  · intro e
    rw [e, Nat.xor_zero]

theorem append_self_inj {s t : Str} (h : s ++ s = t ++ t) : s = t := by
  have hl : s.length = t.length := by
    have := congrArg List.length h
    simp only [List.length_append] at this
    omega
  exact (List.append_inj h hl).1

/-- The check on an active link, in terms of the XOR of the branch hashes. -/
theorem check_entangle_eq (hasher : Str → Nat) (σ τ : Heap) (ent : Entanglement) (a b : Ptr) :
    check_entanglement_integrity hasher τ (entangle hasher σ ent a b)
      = decide (to_string (xorFold hasher (τ a).possible_contents 0) ++
                to_string (xorFold hasher (τ b).possible_contents 0)
              = to_string (xorFold hasher (σ a).possible_contents 0) ++
                to_string (xorFold hasher (σ b).possible_contents 0)) := by
  simp [check_entanglement_integrity, entangle, compute_integrity]

/-- C6. Checking a link right after `entangle`, with both stores as they were, gives
`true`, for any two stores (the same store twice included). -/
theorem check_true_after_entangle (hasher : Str → Nat) (σ : Heap) (ent : Entanglement)
    (a b : Ptr) :
    check_entanglement_integrity hasher σ (entangle hasher σ ent a b) = true := by
  rw [check_entangle_eq]
  exact decide_eq_true rfl

/-- C7 (as stated, refuted). With `std::hash<std::string>` as libstdc++ computes it
(the empty string hashes to 6142509188972423790 there), the 16 characters
``Bra_aasEj`u>y`eU`` hash to 0: appending them to A after `entangle` changes A's
branch list and the check still gives `true`. -/
theorem check_true_after_edit_zero_hash_line :
    stdHash [] = 6142509188972423790 ∧
    stdHash zeroHashLine = 0 ∧
    (Heap.store (twoFiles threeBranches sampleFile) 0
        (edit_file threeBranches zeroHashLine) 0).possible_contents
      = threeBranches.possible_contents ++ [zeroHashLine] ∧
    check_entanglement_integrity stdHash
      (Heap.store (twoFiles threeBranches sampleFile) 0 (edit_file threeBranches zeroHashLine))
      (entangle stdHash (twoFiles threeBranches sampleFile) blankLink 0 1) = true := by
  decide

/-- C7 (amended). After `entangle(link, A, B)` and one `edit_file` on A that appends
`c`, the check gives `false` exactly when the hash of `c` is not zero (A and B may
be the same store). -/
theorem check_after_edit_iff (hasher : Str → Nat) (σ : Heap) (ent : Entanglement)
    (a b : Ptr) (c : Str) :
    check_entanglement_integrity hasher (Heap.store σ a (edit_file (σ a) c))
      (entangle hasher σ ent a b) = false ↔ hasher c ≠ 0 := by
  rw [check_entangle_eq, decide_eq_false_iff_not]
  have ha : (Heap.store σ a (edit_file (σ a) c) a).possible_contents
      = (σ a).possible_contents ++ [c] := by
    simp [Heap.store, edit_file]
  rw [ha, xorFold_append_single]
  by_cases hab : b = a
  · subst hab
    rw [ha, xorFold_append_single]
    constructor
    · intro h hc
      apply h
      rw [hc, Nat.xor_zero]
    · intro h e
      exact h ((xor_eq_self_iff _ _).mp (to_string_inj (append_self_inj e)))
  · have hb : (Heap.store σ a (edit_file (σ a) c) b).possible_contents
        = (σ b).possible_contents := by
      simp [Heap.store, hab]
    rw [hb]
    constructor
    · intro h hc
      apply h
      rw [hc, Nat.xor_zero]
    · intro h e
      exact h ((xor_eq_self_iff _ _).mp (to_string_inj (List.append_cancel_right e)))

/-- C8 (as stated, refuted). Appending the same string twice to A after `entangle`
is a mutation of A's branch list, and the check still gives `true`: the two equal
hashes cancel in the XOR. -/
theorem check_true_after_double_append :
    (Heap.store (twoFiles threeBranches sampleFile) 0
        (edit_file (edit_file threeBranches [7]) [7]) 0).possible_contents
      ≠ threeBranches.possible_contents ∧
    check_entanglement_integrity lengthHash
      (Heap.store (twoFiles threeBranches sampleFile) 0
        (edit_file (edit_file threeBranches [7]) [7]))
      (entangle lengthHash (twoFiles threeBranches sampleFile) blankLink 0 1) = true := by
  decide

/-- C8 (amended). For a link made by `entangle` on the memory `σ` and checked on a
later memory `τ`: when the branches of one linked store are as they were (or both
references name the same store), the check gives `false` exactly when the XOR of
the branch hashes of the other store has changed; and when A's branch list has
grown by the same string twice, B's being as it was, the check gives `true`. -/
theorem check_after_mutation (hasher : Str → Nat) (σ τ : Heap) (ent : Entanglement)
    (a b : Ptr) :
    ((a = b ∨ (τ b).possible_contents = (σ b).possible_contents) →
      (check_entanglement_integrity hasher τ (entangle hasher σ ent a b) = false ↔
        xorFold hasher (τ a).possible_contents 0 ≠ xorFold hasher (σ a).possible_contents 0)) ∧
    ((a = b ∨ (τ a).possible_contents = (σ a).possible_contents) →
      (check_entanglement_integrity hasher τ (entangle hasher σ ent a b) = false ↔
        xorFold hasher (τ b).possible_contents 0 ≠ xorFold hasher (σ b).possible_contents 0)) ∧
    (∀ c : Str, (τ a).possible_contents = (σ a).possible_contents ++ [c] ++ [c] →
      (a = b ∨ (τ b).possible_contents = (σ b).possible_contents) →
      check_entanglement_integrity hasher τ (entangle hasher σ ent a b) = true) := by
  have part1 : (a = b ∨ (τ b).possible_contents = (σ b).possible_contents) →
      (check_entanglement_integrity hasher τ (entangle hasher σ ent a b) = false ↔
        xorFold hasher (τ a).possible_contents 0
          ≠ xorFold hasher (σ a).possible_contents 0) := by
    intro hb
    rw [check_entangle_eq, decide_eq_false_iff_not]
    rcases hb with hab | hb
    · subst hab
      constructor
      · intro h e
        apply h
        rw [e]
      · intro h e
        exact h (to_string_inj (append_self_inj e))
    · rw [hb]
      constructor
      · intro h e
        apply h
        rw [e]
      · intro h e
        exact h (to_string_inj (List.append_cancel_right e))
  refine ⟨part1, ?_, ?_⟩
  · intro ha
    rw [check_entangle_eq, decide_eq_false_iff_not]
    rcases ha with hab | ha
    · subst hab
      constructor
      · intro h e
        apply h
        rw [e]
      · intro h e
        exact h (to_string_inj (append_self_inj e))
    · rw [ha]
      constructor
      · intro h e
        apply h
        rw [e]
      · intro h e
        exact h (to_string_inj ((List.append_right_inj _).mp e))
  · intro c hc hb
    have hx : xorFold hasher (τ a).possible_contents 0
        = xorFold hasher (σ a).possible_contents 0 := by
      rw [hc, xorFold_append_single, xorFold_append_single, Nat.xor_cancel_right]
    cases hchk : check_entanglement_integrity hasher τ (entangle hasher σ ent a b) with
    | true => rfl
    | false => exact absurd hx ((part1 hb).mp hchk)

theorem check_after_mutation_witness :
    check_entanglement_integrity lengthHash
      (Heap.store (twoFiles threeBranches sampleFile) 0 (delete_file threeBranches))
      (entangle lengthHash (twoFiles threeBranches sampleFile) blankLink 0 1) = false :=
  ((check_after_mutation lengthHash (twoFiles threeBranches sampleFile)
      (Heap.store (twoFiles threeBranches sampleFile) 0 (delete_file threeBranches))
      blankLink 0 1).1 (Or.inr (by decide))).mpr (by decide)

/-- C9. After `disentangle` the check gives `true` on every later state of the
memory, and `disentangle` changes the active flag only: both references and the
stored fingerprint stay as they were. -/
theorem check_true_after_disentangle (hasher : Str → Nat) (τ : Heap) (ent : Entanglement) :
    check_entanglement_integrity hasher τ (disentangle ent) = true ∧
    (disentangle ent).active = false ∧
    (disentangle ent).fileA = ent.fileA ∧
    (disentangle ent).fileB = ent.fileB ∧
    (disentangle ent).integrity_hash = ent.integrity_hash := by
  simp [check_entanglement_integrity, disentangle]

/-- C10. `compute_integrity` does not depend on the order of the branches: two
stores whose branch lists are permutations of one another get the same string;
and a store with no branches gets "0". -/
theorem compute_integrity_order_independent (hasher : Str → Nat) (x y : QuantumFile)
    (h : x.possible_contents.Perm y.possible_contents) :
    compute_integrity hasher x = compute_integrity hasher y ∧
    (∀ e : QuantumFile, e.possible_contents = [] → compute_integrity hasher e = [48]) := by
  constructor
  · unfold compute_integrity
    rw [xorFold_perm hasher h]
  · intro e he
    unfold compute_integrity
    rw [he]
    have h0 : to_string 0 = [48] := by decide
    exact h0

theorem compute_integrity_order_independent_witness :
    compute_integrity lengthHash threeBranches
      = compute_integrity lengthHash
          { threeBranches with possible_contents := [[4], [1, 2, 3], [5]] } ∧
    compute_integrity lengthHash (delete_file sampleFile) = [48] :=
  ⟨(compute_integrity_order_independent lengthHash threeBranches
      { threeBranches with possible_contents := [[4], [1, 2, 3], [5]] }
      (List.Perm.swap _ _ _)).1,
   (compute_integrity_order_independent lengthHash threeBranches threeBranches
      (List.Perm.refl _)).2 (delete_file sampleFile) rfl⟩

/-! ## Measurement, gates, qubits -/

/-- C11. Metadata alignment: with branches and metadata both non-empty and a drawn
index `i` below the number of branches, `measure` sets `observed_content` to
`branches[i]` and `observed_metadata` to `metadata[i mod len(metadata)]`, both
indexings being in range; with a single metadata record, that record is observed
whatever the draw. -/
theorem measure_alignment (qf : QuantumFile) (i : Nat)
    (hb : qf.possible_contents ≠ []) (hm : qf.possible_metadata ≠ [])
    (hi : i < qf.possible_contents.length) :
    qf.possible_contents[i]? = some (measure qf i).observed_content ∧
    i % qf.possible_metadata.length < qf.possible_metadata.length ∧
    qf.possible_metadata[i % qf.possible_metadata.length]?
      = some (measure qf i).observed_metadata ∧
    (∀ m : FileMetadata, qf.possible_metadata = [m] → (measure qf i).observed_metadata = m) := by
  have hlen : 0 < qf.possible_metadata.length := List.length_pos.mpr hm
  have hmod : i % qf.possible_metadata.length < qf.possible_metadata.length :=
    Nat.mod_lt _ hlen
  have e1 : qf.possible_contents.isEmpty = false := by
    cases hc : qf.possible_contents with
    | nil => exact absurd hc hb
    | cons _ _ => rfl
  have e2 : qf.possible_metadata.isEmpty = false := by
    cases hc : qf.possible_metadata with
    | nil => exact absurd hc hm
    | cons _ _ => rfl
  have hobs : (measure qf i).observed_content = qf.possible_contents.getD i [] := by
    simp [measure, e1, e2]
  have hmeta : (measure qf i).observed_metadata
      = qf.possible_metadata.getD (i % qf.possible_metadata.length) FileMetadata.init := by
    simp [measure, e1, e2]
  refine ⟨?_, hmod, ?_, ?_⟩
  · rw [hobs, List.getD_eq_getElem _ _ hi, List.getElem?_eq_getElem hi]
  · rw [hmeta, List.getD_eq_getElem _ _ hmod, List.getElem?_eq_getElem hmod]
  · intro m h1
    rw [hmeta, h1]
    simp [Nat.mod_one]

theorem measure_alignment_witness :
    threeAndOne.possible_contents[2]? = some (measure threeAndOne 2).observed_content ∧
    (measure threeAndOne 2).observed_metadata = ⟨[117], [114], [50], 9⟩ :=
  ⟨(measure_alignment threeAndOne 2 (by decide) (by decide) (by decide)).1,
   (measure_alignment threeAndOne 2 (by decide) (by decide) (by decide)).2.2.2 _ rfl⟩

/-- C12. Qubit measurement idempotence: whatever the two samples, measuring a
second time leaves alpha, beta, measured and value as the first measurement left
them, and reports the value of the first measurement. -/
theorem measure_qbit_idempotent (q : Qbit) (s1 s2 : Bool) :
    measure_qbit (measure_qbit q s1) s2 = measure_qbit q s1 ∧
    (measure_qbit (measure_qbit q s1) s2).value = (measure_qbit q s1).value ∧
    (measure_qbit (measure_qbit q s1) s2).alpha = (measure_qbit q s1).alpha ∧
    (measure_qbit (measure_qbit q s1) s2).beta = (measure_qbit q s1).beta ∧
    (q.measured = false →
      measure_qbit_report (measure_qbit q s1) s2
        = Report.alreadyMeasured (measure_qbit q s1).value) := by
  have h : measure_qbit (measure_qbit q s1) s2 = measure_qbit q s1 := by
    cases hm : q.measured with
    | true => simp [measure_qbit, hm]
    | false => simp [measure_qbit, hm]
  refine ⟨h, by rw [h], by rw [h], by rw [h], ?_⟩
  intro hm
  simp [measure_qbit_report, measure_qbit, hm]

/-- C13. On an unmeasured qubit `measure_qbit` sets `measured`, sets `value` to the
sampled outcome (0 or 1), and sets the amplitudes to exactly (1.0, 0.0) for the
value 0 and (0.0, 1.0) for the value 1. -/
theorem measure_qbit_collapses (q : Qbit) (sample : Bool) (h : q.measured = false) :
    (measure_qbit q sample).measured = true ∧
    (measure_qbit q sample).value = (if sample then 1 else 0) ∧
    ((measure_qbit q sample).value = 0 ∨ (measure_qbit q sample).value = 1) ∧
    ((measure_qbit q sample).value = 0 →
      (measure_qbit q sample).alpha = float1 ∧ (measure_qbit q sample).beta = 0) ∧
    ((measure_qbit q sample).value = 1 →
      (measure_qbit q sample).alpha = 0 ∧ (measure_qbit q sample).beta = float1) := by
  cases sample <;> simp [measure_qbit, h]

theorem measure_qbit_collapses_witness :
    (measure_qbit ⟨float1, 0, false, -1⟩ true).measured = true ∧
    (measure_qbit ⟨float1, 0, false, -1⟩ true).value = 1 :=
  ⟨(measure_qbit_collapses ⟨float1, 0, false, -1⟩ true rfl).1,
   (measure_qbit_collapses ⟨float1, 0, false, -1⟩ true rfl).2.1⟩

/-- C14 (defect in `measure_qbit_cli`). With a non-empty qubit list and an index out
of range, `measure_qbit_cli` prints the invalid-index line and then, having no
`return`, evaluates `qf.qbits[idx]` outside the vector; `apply_hadamard` on the
same input prints the line and returns with the store as it was. -/
theorem measure_qbit_cli_out_of_range (qf : QuantumFile) (idx : Nat) (sample : Bool)
    (hne : qf.qbits ≠ []) (hidx : idx ≥ qf.qbits.length) :
    measure_qbit_cli qf idx sample = CliOutcome.outOfBounds [Report.invalidIndex] idx ∧
    (∀ (fp : FloatOps) (first : Nat),
      apply_hadamard fp qf first idx = CliOutcome.returned qf [Report.invalidIndex]) := by
  have e1 : qf.qbits.isEmpty = false := by
    cases hc : qf.qbits with
    | nil => exact absurd hc hne
    | cons _ _ => rfl
  have e2 : qf.qbits[idx]? = none := List.getElem?_eq_none hidx
  constructor
  · simp [measure_qbit_cli, e1, e2, hidx]
  · intro fp first
    simp [apply_hadamard, e1, hidx]

theorem measure_qbit_cli_out_of_range_witness :
    measure_qbit_cli oneQubit 1 false = CliOutcome.outOfBounds [Report.invalidIndex] 1 ∧
    apply_hadamard zeroOps oneQubit 0 1 = CliOutcome.returned oneQubit [Report.invalidIndex] :=
  ⟨(measure_qbit_cli_out_of_range oneQubit 1 false (by decide) (by decide)).1,
   (measure_qbit_cli_out_of_range oneQubit 1 false (by decide) (by decide)).2 zeroOps 0⟩

/-- C15. Gate totality: for every gate and every pair of booleans `apply_gate`
returns `a && b` for AND, `a || b` for OR and `!a` for NOT (whatever `b`), and the
`return false` after the `switch` is not the statement that runs. -/
theorem apply_gate_total (gate : LogicGate) (a b : Bool) :
    apply_gate LogicGate.AND a b = (a && b) ∧
    apply_gate LogicGate.OR a b = (a || b) ∧
    apply_gate LogicGate.NOT a b = (!a) ∧
    (∀ b2 : Bool, apply_gate LogicGate.NOT a b2 = apply_gate LogicGate.NOT a b) ∧
    (apply_gate_body gate.code a b).1 ≠ GateReturn.afterSwitch := by
  refine ⟨rfl, rfl, rfl, fun _ => rfl, ?_⟩
  cases gate <;> simp [apply_gate_body, LogicGate.code]

/-- C17. One task: when the gate gives false, `evolve_state` leaves the store as it
was; when it gives true, it appends one branch `Branch_<task_id>_State_<r>` with
`r ≤ 99` and one metadata record after the earlier ones, and leaves qubits, name
and observed fields as they were, so that both lists grow by one. -/
theorem evolve_state_effect (qf : QuantumFile) (branch_id : Int) (gate : LogicGate)
    (cond1 cond2 : Bool) (r1 r2 : Nat) :
    (apply_gate gate cond1 cond2 = false →
      evolve_state qf branch_id gate cond1 cond2 r1 r2 = qf) ∧
    (apply_gate gate cond1 cond2 = true →
      (∃ r : Nat, r ≤ 99 ∧
        (evolve_state qf branch_id gate cond1 cond2 r1 r2).possible_contents
          = qf.possible_contents ++
            [[66, 114, 97, 110, 99, 104, 95] ++ (to_string_int branch_id ++
              ([95, 83, 116, 97, 116, 101, 95] ++ to_string r))]) ∧
      (∃ m : FileMetadata,
        (evolve_state qf branch_id gate cond1 cond2 r1 r2).possible_metadata
          = qf.possible_metadata ++ [m]) ∧
      (evolve_state qf branch_id gate cond1 cond2 r1 r2).qbits = qf.qbits ∧
      (evolve_state qf branch_id gate cond1 cond2 r1 r2).name = qf.name ∧
      (evolve_state qf branch_id gate cond1 cond2 r1 r2).observed_content
        = qf.observed_content ∧
      (evolve_state qf branch_id gate cond1 cond2 r1 r2).observed_metadata
        = qf.observed_metadata ∧
      (evolve_state qf branch_id gate cond1 cond2 r1 r2).possible_contents.length
          + qf.possible_metadata.length
        = qf.possible_contents.length
          + (evolve_state qf branch_id gate cond1 cond2 r1 r2).possible_metadata.length) := by
  constructor
  · intro h
    simp [evolve_state, h]
  · intro h
    have hr : r1 % 100 ≤ 99 := by omega
    refine ⟨⟨r1 % 100, hr, ?_⟩, ⟨metaRecord branch_id r2, ?_⟩, ?_, ?_, ?_, ?_, ?_⟩ <;>
      simp [evolve_state, h, pushMetadata, pushBranch, branchText]
    omega

theorem evolve_state_effect_witness :
    (evolve_state threeBranches 3 LogicGate.AND true true 142 7).possible_contents.length
        + threeBranches.possible_metadata.length
      = threeBranches.possible_contents.length
        + (evolve_state threeBranches 3 LogicGate.AND true true 142 7).possible_metadata.length ∧
    evolve_state threeBranches 3 LogicGate.AND true false 142 7 = threeBranches :=
  ⟨((evolve_state_effect threeBranches 3 LogicGate.AND true true 142 7).2 rfl).2.2.2.2.2.2,
   (evolve_state_effect threeBranches 3 LogicGate.AND true false 142 7).1 rfl⟩

theorem hadamard_consistent (fp : FloatOps) (q : Qbit) (h : q.Consistent) :
    (hadamard fp q).Consistent := h

theorem measure_qbit_consistent (q : Qbit) (sample : Bool) (h : q.Consistent) :
    (measure_qbit q sample).Consistent := by
  cases hm : q.measured with
  | true =>
    have : measure_qbit q sample = q := by simp [measure_qbit, hm]
    rw [this]
    exact h
  | false =>
    left
    cases sample <;> simp [measure_qbit, hm]

theorem runOps_consistent (fp : FloatOps) (ops : List QbitOp) :
    ∀ q : Qbit, q.Consistent → (runOps fp ops q).Consistent := by
  induction ops with
  | nil => intro q h; exact h
  | cons op ops ih =>
    intro q h
    apply ih
    cases op with
    | hadamard => exact hadamard_consistent fp q h
    | measure sample => exact measure_qbit_consistent q sample h

/-- C18. Qubit state invariant: the qubit `create_qbit` appends, after any sequence
of `hadamard` and `measure_qbit` steps (whatever the arithmetic and the samples),
has value -1, 0 or 1, is measured exactly when its value is 0 or 1, and has value
-1 exactly when it is unmeasured; `hadamard` leaves `measured` and `value` as
they were. -/
theorem qbit_state_invariant (fp : FloatOps) (qf : QuantumFile) (ops : List QbitOp) :
    (create_qbit qf).qbits = qf.qbits ++ [⟨float1, 0, false, -1⟩] ∧
    ((runOps fp ops ⟨float1, 0, false, -1⟩).value = -1 ∨
      (runOps fp ops ⟨float1, 0, false, -1⟩).value = 0 ∨
      (runOps fp ops ⟨float1, 0, false, -1⟩).value = 1) ∧
    ((runOps fp ops ⟨float1, 0, false, -1⟩).measured = true ↔
      ((runOps fp ops ⟨float1, 0, false, -1⟩).value = 0 ∨
       (runOps fp ops ⟨float1, 0, false, -1⟩).value = 1)) ∧
    ((runOps fp ops ⟨float1, 0, false, -1⟩).value = -1 ↔
      (runOps fp ops ⟨float1, 0, false, -1⟩).measured = false) ∧
    (∀ q : Qbit, (hadamard fp q).measured = q.measured ∧ (hadamard fp q).value = q.value) := by
  have h := runOps_consistent fp ops ⟨float1, 0, false, -1⟩ (Or.inr ⟨rfl, rfl⟩)
  refine ⟨rfl, ?_, ?_, ?_, fun q => ⟨rfl, rfl⟩⟩
  · rcases h with ⟨_, h0 | h1⟩ | ⟨_, hv⟩
    · exact Or.inr (Or.inl h0)
    · exact Or.inr (Or.inr h1)
    · exact Or.inl hv
  · rcases h with ⟨hm, hv⟩ | ⟨hm, hv⟩
    · exact ⟨fun _ => hv, fun _ => hm⟩
    · constructor
      · intro h2
        rw [hm] at h2
        cases h2
      · intro h2
        rcases h2 with h2 | h2 <;> rw [hv] at h2 <;> cases h2
  · rcases h with ⟨hm, hv⟩ | ⟨hm, hv⟩
    · constructor
      · intro h2
        rcases hv with hv | hv <;> rw [hv] at h2 <;> cases h2
      · intro h2
        rw [hm] at h2
        cases h2
    · exact ⟨fun _ => hm, fun _ => hv⟩

/-- C19. A decode of a well-formed in-bound stream replaces: for every two target
stores the call completes, the branches, metadata and qubits are those the stream
carries (the same for both targets, nothing of the earlier containers left), and
the name and the observed fields of each target stay as they were. -/
theorem deserialize_replaces (bs : List Byte) (d : Decoded) (h : specDecode bs = Except.ok d)
    (t1 t2 : QuantumFile) (j1 j2 : Uninit) :
    (deserialize t1 j1 (some bs)).2 = Exit.completed ∧
    (deserialize t1 j1 (some bs)).1.possible_contents = d.branches ∧
    (deserialize t1 j1 (some bs)).1.possible_metadata = d.metadata ∧
    (deserialize t1 j1 (some bs)).1.qbits = d.qubits ∧
    (deserialize t1 j1 (some bs)).1.possible_contents
      = (deserialize t2 j2 (some bs)).1.possible_contents ∧
    (deserialize t1 j1 (some bs)).1.possible_metadata
      = (deserialize t2 j2 (some bs)).1.possible_metadata ∧
    (deserialize t1 j1 (some bs)).1.qbits = (deserialize t2 j2 (some bs)).1.qbits ∧
    (deserialize t1 j1 (some bs)).1.name = t1.name ∧
    (deserialize t1 j1 (some bs)).1.observed_content = t1.observed_content ∧
    (deserialize t1 j1 (some bs)).1.observed_metadata = t1.observed_metadata := by
  rw [deserialize_of_specDecode_ok t1 j1 bs d h, deserialize_of_specDecode_ok t2 j2 bs d h]
  exact ⟨rfl, rfl, rfl, rfl, rfl, rfl, rfl, rfl, rfl, rfl⟩

theorem deserialize_replaces_witness :
    (deserialize threeBranches zeroJunk (some (serialize sampleFile))).1.possible_contents
      = (deserialize oneQubit zeroJunk (some (serialize sampleFile))).1.possible_contents ∧
    (deserialize oneQubit zeroJunk (some (serialize sampleFile))).1.qbits = sampleFile.qbits ∧
    (deserialize oneQubit zeroJunk (some (serialize sampleFile))).1.name = oneQubit.name :=
  ⟨(deserialize_replaces (serialize sampleFile)
      ⟨sampleFile.possible_contents, sampleFile.possible_metadata, sampleFile.qbits⟩
      (by decide) threeBranches oneQubit zeroJunk zeroJunk).2.2.2.2.1,
   (deserialize_replaces (serialize sampleFile)
      ⟨sampleFile.possible_contents, sampleFile.possible_metadata, sampleFile.qbits⟩
      (by decide) oneQubit oneQubit zeroJunk zeroJunk).2.2.2.1,
   (deserialize_replaces (serialize sampleFile)
      ⟨sampleFile.possible_contents, sampleFile.possible_metadata, sampleFile.qbits⟩
      (by decide) oneQubit oneQubit zeroJunk zeroJunk).2.2.2.2.2.2.2.1⟩

/-! ## The five threads -/

theorem setPc_same (pc : Nat → Pc) (t : Nat) (v : Pc) : setPc pc t v t = v := by
  simp [setPc]

theorem setPc_other (pc : Nat → Pc) (t x : Nat) (v : Pc) (h : x ≠ t) : setPc pc t v x = pc x := by
  simp [setPc, h]

theorem evolveInit_inv (qf : QuantumFile) : EvolveInv qf (evolveInit qf) [] where
  contents := by simp [evolveInit]
  nodup := List.nodup_nil
  mem := by intro t; simp [evolveInit, Pc.pushed]
  holder := by intro t; simp [evolveInit, Pc.inside]
  idle := by intro t _; rfl

theorem taskStep_inv (gate : LogicGate) (cond1 cond2 : Bool) (rand : Nat → Nat)
    (hg : apply_gate gate cond1 cond2 = true) (qf0 : QuantumFile) (s : Threads)
    (news : List (Nat × Nat)) (t : Nat) (ht : t < 5) (h : EvolveInv qf0 s news) :
    ∃ news2 : List (Nat × Nat), EvolveInv qf0 (taskStep gate cond1 cond2 rand t s) news2 := by
  have hm := h.mem t
  have hh := h.holder t
  cases hpc : s.pc t with
  | start =>
    have e : taskStep gate cond1 cond2 rand t s = { s with pc := setPc s.pc t Pc.lock } := by
      simp [taskStep, hpc, hg]
    rw [e]
    rw [hpc] at hm hh
    refine ⟨news, ⟨h.contents, h.nodup, ?_, ?_, ?_⟩⟩
    · intro x
      by_cases hx : x = t
      · subst hx
        simpa [setPc_same, Pc.pushed] using hm
      · simpa [setPc_other _ _ _ _ hx] using h.mem x
    · intro x
      by_cases hx : x = t
      · subst hx
        simpa [setPc_same, Pc.inside] using hh
      · simpa [setPc_other _ _ _ _ hx] using h.holder x
    · intro x hx5
      have hx : x ≠ t := by omega
      simpa [setPc_other _ _ _ _ hx] using h.idle x hx5
  | lock =>
    rw [hpc] at hm hh
    cases hhold : s.holder with
    | some o =>
      have e : taskStep gate cond1 cond2 rand t s = s := by
        simp [taskStep, hpc, hhold]
      rw [e]
      exact ⟨news, h⟩
    | none =>
      have e : taskStep gate cond1 cond2 rand t s
          = { s with holder := some t, pc := setPc s.pc t Pc.pushContent } := by
        simp [taskStep, hpc, hhold]
      rw [e]
      refine ⟨news, ⟨h.contents, h.nodup, ?_, ?_, ?_⟩⟩
      · intro x
        by_cases hx : x = t
        · subst hx
          simpa [setPc_same, Pc.pushed] using hm
        · simpa [setPc_other _ _ _ _ hx] using h.mem x
      · intro x
        by_cases hx : x = t
        · subst hx
          simp [setPc_same, Pc.inside]
        · have hox := h.holder x
          rw [hhold] at hox
          have hne : ¬ t = x := fun e2 => hx e2.symm
          simpa [setPc_other _ _ _ _ hx, hne] using hox
      · intro x hx5
        have hx : x ≠ t := by omega
        simpa [setPc_other _ _ _ _ hx] using h.idle x hx5
  | pushContent =>
    have e : taskStep gate cond1 cond2 rand t s
        = { s with
            qf := pushBranch s.qf (t : Int) (rand s.calls)
            calls := s.calls + 1
            pc := setPc s.pc t Pc.pushMeta } := by
      simp [taskStep, hpc]
    rw [e]
    rw [hpc] at hm hh
    have hnot : t ∉ news.map Prod.fst := by
      intro hin
      have := hm.mp hin
      simp [Pc.pushed] at this
    refine ⟨news ++ [(t, rand s.calls)], ⟨?_, ?_, ?_, ?_, ?_⟩⟩
    · simp [pushBranch, h.contents]
    · rw [List.map_append, List.nodup_append]
      refine ⟨h.nodup, by simp, ?_⟩
      intro a ha hb
      simp only [List.map_cons, List.map_nil, List.mem_singleton] at hb
      subst hb
      exact hnot ha
    · intro x
      by_cases hx : x = t
      · subst hx
        simp [setPc_same, Pc.pushed]
      · have := h.mem x
        simp only [List.map_append, List.mem_append, List.map_cons, List.map_nil,
          List.mem_singleton, hx, or_false, setPc_other _ _ _ _ hx]
        exact this
    · intro x
      by_cases hx : x = t
      · subst hx
        simpa [setPc_same, Pc.inside] using hh
      · simpa [setPc_other _ _ _ _ hx] using h.holder x
    · intro x hx5
      have hx : x ≠ t := by omega
      simpa [setPc_other _ _ _ _ hx] using h.idle x hx5
  | pushMeta =>
    have e : taskStep gate cond1 cond2 rand t s
        = { s with
            qf := pushMetadata s.qf (t : Int) (rand s.calls)
            calls := s.calls + 1
            pc := setPc s.pc t Pc.unlock } := by
      simp [taskStep, hpc]
    rw [e]
    rw [hpc] at hm hh
    refine ⟨news, ⟨?_, h.nodup, ?_, ?_, ?_⟩⟩
    · simp [pushMetadata, h.contents]
    · intro x
      by_cases hx : x = t
      · subst hx
        simpa [setPc_same, Pc.pushed] using hm
      · simpa [setPc_other _ _ _ _ hx] using h.mem x
    · intro x
      by_cases hx : x = t
      · subst hx
        simpa [setPc_same, Pc.inside] using hh
      · simpa [setPc_other _ _ _ _ hx] using h.holder x
    · intro x hx5
      have hx : x ≠ t := by omega
      simpa [setPc_other _ _ _ _ hx] using h.idle x hx5
  | unlock =>
    have e : taskStep gate cond1 cond2 rand t s
        = { s with holder := none, pc := setPc s.pc t Pc.finished } := by
      simp [taskStep, hpc]
    rw [e]
    rw [hpc] at hm hh
    have hold : s.holder = some t := hh.mpr rfl
    refine ⟨news, ⟨h.contents, h.nodup, ?_, ?_, ?_⟩⟩
    · intro x
      by_cases hx : x = t
      · subst hx
        simpa [setPc_same, Pc.pushed] using hm
      · simpa [setPc_other _ _ _ _ hx] using h.mem x
    · intro x
      by_cases hx : x = t
      · subst hx
        simp [setPc_same, Pc.inside]
      · have hox := h.holder x
        rw [hold] at hox
        have hne : ¬ t = x := fun e2 => hx e2.symm
        simpa [setPc_other _ _ _ _ hx, hne] using hox
    · intro x hx5
      have hx : x ≠ t := by omega
      simpa [setPc_other _ _ _ _ hx] using h.idle x hx5
  | finished =>
    have e : taskStep gate cond1 cond2 rand t s = s := by
      simp [taskStep, hpc]
    rw [e]
    exact ⟨news, h⟩

theorem runSchedule_inv (gate : LogicGate) (cond1 cond2 : Bool) (rand : Nat → Nat)
    (hg : apply_gate gate cond1 cond2 = true) (qf0 : QuantumFile) (sched : List Nat) :
    ∀ (s : Threads) (news : List (Nat × Nat)), EvolveInv qf0 s news →
      ∃ news2 : List (Nat × Nat),
        EvolveInv qf0 (runSchedule gate cond1 cond2 rand sched s) news2 := by
  induction sched with
  | nil => intro s news h; exact ⟨news, h⟩
  | cons t ts ih =>
    intro s news h
    unfold runSchedule
    by_cases ht : t < 5
    · rw [if_pos ht]
      obtain ⟨n2, h2⟩ := taskStep_inv gate cond1 cond2 rand hg qf0 s news t ht h
      exact ih _ n2 h2
    · rw [if_neg ht]
      exact ih _ news h

/-- A thread that takes its five steps with no other thread in between does to the
store what `evolve_state` does. -/
theorem runSchedule_single_thread (gate : LogicGate) (cond1 cond2 : Bool) (rand : Nat → Nat)
    (qf : QuantumFile) (t : Nat) (ht : t < 5) :
    (runSchedule gate cond1 cond2 rand [t, t, t, t, t] (evolveInit qf)).qf
      = evolve_state qf (t : Int) gate cond1 cond2 (rand 0) (rand 1) := by
  cases h : apply_gate gate cond1 cond2 <;>
    simp [runSchedule, taskStep, evolveInit, ht, h, setPc, evolve_state]

theorem rankOf_setPc (pc : Nat → Pc) (t : Nat) (ht : t < 5) (v : Pc) :
    rankOf (setPc pc t v) + (pc t).rank = rankOf pc + v.rank := by
  interval_cases t <;> simp [rankOf, setPc] <;> omega

theorem Pc.rank_le (p : Pc) : p.rank ≤ 5 := by
  cases p <;> simp [Pc.rank]

theorem Pc.rank_eq_five (p : Pc) (h : p.rank = 5) : p = Pc.finished := by
  cases p <;> simp [Pc.rank] at h ⊢

theorem rankOf_le (pc : Nat → Pc) : rankOf pc ≤ 25 := by
  have h0 := Pc.rank_le (pc 0)
  have h1 := Pc.rank_le (pc 1)
  have h2 := Pc.rank_le (pc 2)
  have h3 := Pc.rank_le (pc 3)
  have h4 := Pc.rank_le (pc 4)
  unfold rankOf
  omega

theorem allFinished_iff_rank (s : Threads) : allFinished s ↔ rankOf s.pc = 25 := by
  have h0 := Pc.rank_le (s.pc 0)
  have h1 := Pc.rank_le (s.pc 1)
  have h2 := Pc.rank_le (s.pc 2)
  have h3 := Pc.rank_le (s.pc 3)
  have h4 := Pc.rank_le (s.pc 4)
  constructor
  · intro h
    unfold rankOf
    rw [h 0 (by omega), h 1 (by omega), h 2 (by omega), h 3 (by omega), h 4 (by omega)]
    rfl
  · intro h t ht
    unfold rankOf at h
    apply Pc.rank_eq_five
    interval_cases t <;> omega

/-- A step that a thread can take puts one more step behind the five threads. -/
theorem moves_rank (gate : LogicGate) (cond1 cond2 : Bool) (rand : Nat → Nat)
    (hg : apply_gate gate cond1 cond2 = true) (t : Nat) (s : Threads)
    (hm : moves gate cond1 cond2 rand t s = true) :
    t < 5 ∧ rankOf (taskStep gate cond1 cond2 rand t s).pc = rankOf s.pc + 1 := by
  simp only [moves, Bool.and_eq_true, decide_eq_true_eq] at hm
  obtain ⟨ht, hne⟩ := hm
  refine ⟨ht, ?_⟩
  cases hpc : s.pc t with
  | start =>
    have e : (taskStep gate cond1 cond2 rand t s).pc = setPc s.pc t Pc.lock := by
      simp [taskStep, hpc, hg]
    have := rankOf_setPc s.pc t ht Pc.lock
    rw [e]
    rw [hpc] at this
    simp only [Pc.rank] at this
    omega
  | lock =>
    cases hhold : s.holder with
    | some o =>
      have e : taskStep gate cond1 cond2 rand t s = s := by
        simp [taskStep, hpc, hhold]
      rw [e] at hne
      exact absurd rfl hne
    | none =>
      have e : (taskStep gate cond1 cond2 rand t s).pc = setPc s.pc t Pc.pushContent := by
        simp [taskStep, hpc, hhold]
      have := rankOf_setPc s.pc t ht Pc.pushContent
      rw [e]
      rw [hpc] at this
      simp only [Pc.rank] at this
      omega
  | pushContent =>
    have e : (taskStep gate cond1 cond2 rand t s).pc = setPc s.pc t Pc.pushMeta := by
      simp [taskStep, hpc]
    have := rankOf_setPc s.pc t ht Pc.pushMeta
    rw [e]
    rw [hpc] at this
    simp only [Pc.rank] at this
    omega
  | pushMeta =>
    have e : (taskStep gate cond1 cond2 rand t s).pc = setPc s.pc t Pc.unlock := by
      simp [taskStep, hpc]
    have := rankOf_setPc s.pc t ht Pc.unlock
    rw [e]
    rw [hpc] at this
    simp only [Pc.rank] at this
    omega
  | unlock =>
    have e : (taskStep gate cond1 cond2 rand t s).pc = setPc s.pc t Pc.finished := by
      simp [taskStep, hpc]
    have := rankOf_setPc s.pc t ht Pc.finished
    rw [e]
    rw [hpc] at this
    simp only [Pc.rank] at this
    omega
  | finished =>
    have e : taskStep gate cond1 cond2 rand t s = s := by
      simp [taskStep, hpc]
    rw [e] at hne
    exact absurd rfl hne

/-- After an execution the five threads have as many steps behind them as the
execution is long. -/
theorem execution_rank (gate : LogicGate) (cond1 cond2 : Bool) (rand : Nat → Nat)
    (hg : apply_gate gate cond1 cond2 = true) (sched : List Nat) :
    ∀ s : Threads, execution gate cond1 cond2 rand sched s = true →
      rankOf (runSchedule gate cond1 cond2 rand sched s).pc = rankOf s.pc + sched.length := by
  induction sched with
  | nil => intro s _; rfl
  | cons t ts ih =>
    intro s h
    simp only [execution, Bool.and_eq_true] at h
    obtain ⟨hm, hrest⟩ := h
    obtain ⟨ht, hr⟩ := moves_rank gate cond1 cond2 rand hg t s hm
    unfold runSchedule
    rw [if_pos ht, ih _ hrest, hr, List.length_cons]
    omega

theorem mem_range5 (a : Nat) : a ∈ [0, 1, 2, 3, 4] ↔ a < 5 := by
  simp only [List.mem_cons, List.mem_singleton, List.not_mem_nil, or_false]
  omega

/-- While some thread is not done, some thread is ready: the holder of the mutex
if there is one, any thread that is not done otherwise. -/
theorem inv_progress (rand : Nat → Nat) (qf0 : QuantumFile) (s : Threads)
    (news : List (Nat × Nat)) (h : EvolveInv qf0 s news) (hnf : ¬ allFinished s) :
    ∃ t : Nat, moves LogicGate.AND true true rand t s = true := by
  cases hhold : s.holder with
  | none =>
    unfold allFinished at hnf
    push_neg at hnf
    obtain ⟨t, ht, hne⟩ := hnf
    have hin : ¬ (s.pc t).inside = true := by
      intro hi
      have := (h.holder t).mpr hi
      rw [hhold] at this
      cases this
    refine ⟨t, ?_⟩
    cases hpc : s.pc t with
    | start =>
      simp [moves, ht, taskStep, hpc, apply_gate, apply_gate_body, LogicGate.code, setPc_same]
    | lock => simp [moves, ht, taskStep, hpc, hhold, setPc_same]
    | pushContent => rw [hpc] at hin; simp [Pc.inside] at hin
    | pushMeta => rw [hpc] at hin; simp [Pc.inside] at hin
    | unlock => rw [hpc] at hin; simp [Pc.inside] at hin
    | finished => exact absurd hpc hne
  | some o =>
    have hin : (s.pc o).inside = true := (h.holder o).mp hhold
    have ho : o < 5 := by
      by_contra hge
      have := h.idle o (by omega)
      rw [this] at hin
      simp [Pc.inside] at hin
    refine ⟨o, ?_⟩
    cases hpc : s.pc o with
    | start => rw [hpc] at hin; simp [Pc.inside] at hin
    | lock => rw [hpc] at hin; simp [Pc.inside] at hin
    | pushContent => simp [moves, ho, taskStep, hpc, setPc_same]
    | pushMeta => simp [moves, ho, taskStep, hpc, setPc_same]
    | unlock => simp [moves, ho, taskStep, hpc, setPc_same]
    | finished => rw [hpc] at hin; simp [Pc.inside] at hin

/-- When all five threads are done the new branches are one per thread. -/
theorem inv_post (qf0 : QuantumFile) (s : Threads) (news : List (Nat × Nat))
    (h : EvolveInv qf0 s news) (hall : allFinished s) :
    ∃ news2 : List (Nat × Nat), (news2.map Prod.fst).Perm [0, 1, 2, 3, 4] ∧
      s.qf.possible_contents
        = qf0.possible_contents ++ news2.map (fun p => branchText (p.1 : Int) p.2) ∧
      s.qf.possible_contents.length = qf0.possible_contents.length + 5 := by
  have hperm : (news.map Prod.fst).Perm [0, 1, 2, 3, 4] := by
    apply (List.perm_ext_iff_of_nodup h.nodup (by decide)).mpr
    intro a
    rw [mem_range5, h.mem a]
    by_cases ha : a < 5
    · rw [hall a ha]
      simp [Pc.pushed, ha]
    · rw [h.idle a (by omega)]
      simp [Pc.pushed, ha]
  refine ⟨news, hperm, h.contents, ?_⟩
  have hlen : news.length = 5 := by
    have := hperm.length_eq
    simpa using this
  rw [h.contents, List.length_append, List.length_map, hlen]

theorem execution_snoc (gate : LogicGate) (cond1 cond2 : Bool) (rand : Nat → Nat)
    (sched : List Nat) (t : Nat) :
    ∀ s : Threads, execution gate cond1 cond2 rand (sched ++ [t]) s
      = (execution gate cond1 cond2 rand sched s &&
          moves gate cond1 cond2 rand t (runSchedule gate cond1 cond2 rand sched s)) := by
  induction sched with
  | nil => intro s; simp [execution, runSchedule]
  | cons a ts ih =>
    intro s
    simp only [List.cons_append, execution, runSchedule]
    cases hm : moves gate cond1 cond2 rand a s with
    | false => simp
    | true =>
      have ha : a < 5 := by
        simp only [moves, Bool.and_eq_true, decide_eq_true_eq] at hm
        exact hm.1
      simp only [ha, if_true, Bool.true_and]
      exact ih _

theorem snoc_append (sched : List Nat) (t : Nat) (ext : List Nat) :
    (sched ++ [t]) ++ ext = sched ++ (t :: ext) := by
  simp

/-- Every execution of the five threads can be continued to one of 25 steps. -/
theorem execution_completes (qf : QuantumFile) (rand : Nat → Nat) (k : Nat) :
    ∀ sched : List Nat, execution LogicGate.AND true true rand sched (evolveInit qf) = true →
      sched.length + k = 25 →
      ∃ ext : List Nat, ext.length = k ∧
        execution LogicGate.AND true true rand (sched ++ ext) (evolveInit qf) = true := by
  induction k with
  | zero => intro sched hex _; exact ⟨[], rfl, by simpa using hex⟩
  | succ k ih =>
    intro sched hex hlen
    obtain ⟨news, h⟩ := runSchedule_inv LogicGate.AND true true rand rfl qf sched
      (evolveInit qf) [] (evolveInit_inv qf)
    have hr := execution_rank LogicGate.AND true true rand rfl sched (evolveInit qf) hex
    have h0 : rankOf (evolveInit qf).pc = 0 := rfl
    have hnf : ¬ allFinished
        (runSchedule LogicGate.AND true true rand sched (evolveInit qf)) := by
      intro hall
      have := (allFinished_iff_rank _).mp hall
      omega
    obtain ⟨t, ht⟩ := inv_progress rand qf _ news h hnf
    have hex2 : execution LogicGate.AND true true rand (sched ++ [t]) (evolveInit qf) = true := by
      rw [execution_snoc, hex, ht]
      rfl
    obtain ⟨ext, he1, he2⟩ := ih (sched ++ [t]) hex2 (by simp; omega)
    refine ⟨t :: ext, by simp [he1], ?_⟩
    rw [← snoc_append sched t ext]
    exact he2

/-- C16. Concurrent evolution with AND(true, true), the five threads taking their
steps in any order. Every execution (a schedule of threads that are ready when
their turn comes) has at most 25 steps and can be continued to one of 25 steps;
while it has fewer, some thread is ready; and once it has 25, or no thread is
ready any more, all five threads are done and the store holds its earlier
branches followed by exactly five new ones, one
`Branch_<id>_State_<r mod 100>` for each of the ids 0..4. In every state the
threads can reach, also under a schedule that names waiting threads, at most one
thread is between taking and releasing the mutex. -/
theorem evolve_appends_five (qf : QuantumFile) (rand : Nat → Nat) (sched : List Nat) :
    (∀ t1 t2 : Nat, ((evolve LogicGate.AND qf rand sched).pc t1).inside = true →
      ((evolve LogicGate.AND qf rand sched).pc t2).inside = true → t1 = t2) ∧
    (¬ allFinished (evolve LogicGate.AND qf rand sched) →
      ∃ t : Nat, moves LogicGate.AND true true rand t (evolve LogicGate.AND qf rand sched)
        = true) ∧
    ((∀ t : Nat, moves LogicGate.AND true true rand t (evolve LogicGate.AND qf rand sched)
        = false) →
      allFinished (evolve LogicGate.AND qf rand sched)) ∧
    (allFinished (evolve LogicGate.AND qf rand sched) →
      ∃ news : List (Nat × Nat), (news.map Prod.fst).Perm [0, 1, 2, 3, 4] ∧
        (evolve LogicGate.AND qf rand sched).qf.possible_contents
          = qf.possible_contents ++ news.map (fun p => branchText (p.1 : Int) p.2) ∧
        (evolve LogicGate.AND qf rand sched).qf.possible_contents.length
          = qf.possible_contents.length + 5) ∧
    (execution LogicGate.AND true true rand sched (evolveInit qf) = true →
      sched.length ≤ 25 ∧
      (sched.length < 25 →
        ∃ t : Nat, moves LogicGate.AND true true rand t (evolve LogicGate.AND qf rand sched)
          = true) ∧
      (sched.length = 25 →
        allFinished (evolve LogicGate.AND qf rand sched) ∧
        ∃ news : List (Nat × Nat), (news.map Prod.fst).Perm [0, 1, 2, 3, 4] ∧
          (evolve LogicGate.AND qf rand sched).qf.possible_contents
            = qf.possible_contents ++ news.map (fun p => branchText (p.1 : Int) p.2) ∧
          (evolve LogicGate.AND qf rand sched).qf.possible_contents.length
            = qf.possible_contents.length + 5) ∧
      (∃ ext : List Nat, (sched ++ ext).length = 25 ∧
        execution LogicGate.AND true true rand (sched ++ ext) (evolveInit qf) = true ∧
        allFinished (evolve LogicGate.AND qf rand (sched ++ ext)) ∧
        (evolve LogicGate.AND qf rand (sched ++ ext)).qf.possible_contents.length
          = qf.possible_contents.length + 5)) := by
  obtain ⟨news, h⟩ := runSchedule_inv LogicGate.AND true true rand rfl qf sched (evolveInit qf) []
    (evolveInit_inv qf)
  have h0 : rankOf (evolveInit qf).pc = 0 := rfl
  have hrank : execution LogicGate.AND true true rand sched (evolveInit qf) = true →
      rankOf (runSchedule LogicGate.AND true true rand sched (evolveInit qf)).pc
        = sched.length := by
    intro hex
    have := execution_rank LogicGate.AND true true rand rfl sched (evolveInit qf) hex
    rw [this, h0, Nat.zero_add]
  have hcomplete : execution LogicGate.AND true true rand sched (evolveInit qf) = true →
      ∃ ext : List Nat, (sched ++ ext).length = 25 ∧
        execution LogicGate.AND true true rand (sched ++ ext) (evolveInit qf) = true ∧
        allFinished (evolve LogicGate.AND qf rand (sched ++ ext)) ∧
        (evolve LogicGate.AND qf rand (sched ++ ext)).qf.possible_contents.length
          = qf.possible_contents.length + 5 := by
    intro hex
    have hle : sched.length ≤ 25 := by
      have := hrank hex
      have := rankOf_le (runSchedule LogicGate.AND true true rand sched (evolveInit qf)).pc
      omega
    obtain ⟨ext, he1, he2⟩ := execution_completes qf rand (25 - sched.length) sched hex
      (by omega)
    have hl : (sched ++ ext).length = 25 := by
      rw [List.length_append, he1]
      omega
    obtain ⟨news2, h2⟩ := runSchedule_inv LogicGate.AND true true rand rfl qf (sched ++ ext)
      (evolveInit qf) [] (evolveInit_inv qf)
    have hr2 := execution_rank LogicGate.AND true true rand rfl (sched ++ ext) (evolveInit qf) he2
    have hall : allFinished (evolve LogicGate.AND qf rand (sched ++ ext)) := by
      unfold evolve
      apply (allFinished_iff_rank _).mpr
      rw [hr2, h0, hl]
    obtain ⟨_, _, _, hpost⟩ := inv_post qf _ news2 h2 hall
    exact ⟨ext, hl, he2, hall, hpost⟩
  unfold evolve at hcomplete ⊢
  generalize runSchedule LogicGate.AND true true rand sched (evolveInit qf) = s at h hrank
  refine ⟨?_, inv_progress rand qf s news h, ?_, inv_post qf s news h, ?_⟩
  · intro t1 t2 h1 h2
    have e1 := (h.holder t1).mpr h1
    have e2 := (h.holder t2).mpr h2
    rw [e1] at e2
    exact Option.some.inj e2
  · intro hno
    by_contra hnf
    obtain ⟨t, ht⟩ := inv_progress rand qf s news h hnf
    rw [hno t] at ht
    cases ht
  · intro hex
    have hr := hrank hex
    have hle := rankOf_le s.pc
    refine ⟨by omega, ?_, ?_, hcomplete hex⟩
    · intro hlt
      apply inv_progress rand qf s news h
      intro hall
      have := (allFinished_iff_rank s).mp hall
      omega
    · intro h25
      have hall : allFinished s := (allFinished_iff_rank s).mpr (by omega)
      exact ⟨hall, inv_post qf s news h hall⟩

theorem evolve_appends_five_witness :
    execution LogicGate.AND true true sampleRand sampleExecution (evolveInit threeBranches)
      = true ∧
    allFinished (evolve LogicGate.AND threeBranches sampleRand sampleExecution) ∧
    (evolve LogicGate.AND threeBranches sampleRand sampleExecution).qf.possible_contents.length
      = threeBranches.possible_contents.length + 5 ∧
    (evolve LogicGate.AND threeBranches sampleRand sampleSchedule).qf.possible_contents.length
      = threeBranches.possible_contents.length + 5 :=
  ⟨by decide,
   (((evolve_appends_five threeBranches sampleRand sampleExecution).2.2.2.2 (by decide)).2.2.1
      rfl).1,
   (((evolve_appends_five threeBranches sampleRand sampleExecution).2.2.2.2 (by decide)).2.2.1
      rfl).2.elim (fun _ hn => hn.2.2),
   ((evolve_appends_five threeBranches sampleRand sampleSchedule).2.2.2.1 (by decide)).elim
     (fun _ hn => hn.2.2)⟩

end KQuanFS
